import Mathlib

/-!
A shallow embedding of the BASIC interpreter (`basic.c`, `basic.h`, `shell.c`)

The development models the tokenizer, the expression evaluator and the
statement dispatcher of the interpreter and proves properties of them.

Modelling conventions.

* A C string is a `List Char` (the characters before the terminating NUL).
* `int` is a mathematical `Int`; every arithmetic result is brought back into
  the signed 32-bit range by `wrap32` (two's complement wrap-around).
* `size_t` indices are `Nat`.  The only subtractions on indices in the source
  (`close - 1`, `close - i`, `end - shift_amount`, `end--`, `count - 1`) are
  taken where the minuend is at least the subtrahend, and `i = start - 1`
  followed by the loop's `i++` is modelled as `i = start`.
* The token buffer `Token*` is a `List Token`; `tokens[i]` is `tokAt tokens i`
  and an assignment to `tokens[i]` is `List.set`.  The text owned by a token
  is held by value: the size of the heap block behind `value` is not modelled.
* The out-parameter `BasicError* error` is threaded explicitly: every function
  that receives it takes its entry value and returns its exit value.
* The global `variables[26]` is a `Store`, passed explicitly.
* Text written by `printf` is returned as a `List Char`.
* Loops are recursive functions on a `Nat` counter.  A C function that can
  loop an unbounded number of times takes fuel and finishes with
  `Run.starved` when the fuel is gone; the entry points supply enough fuel.
  A step whose behaviour is undefined in C and traps on common hardware
  (an `int` division by zero, `INT_MIN / -1`) finishes with `Run.fault`.
-/

namespace Basic

/-! ## Data model (`basic.h`) -/

/-- Token types, `TokenType` of `basic.h`. -/
inductive TokenType where
  | TOKEN_NONE
  | TOKEN_NUMBER
  | TOKEN_VARIABLE
  | TOKEN_OPERATOR
  | TOKEN_KEYWORD
  | TOKEN_STRING
  | TOKEN_PAREN_OPEN
  | TOKEN_PAREN_CLOSE
  | TOKEN_EXPRESSION
deriving DecidableEq

/-- Operator types, `OperatorType` of `basic.h`. -/
inductive OperatorType where
  | OP_NONE
  | OP_PLUS
  | OP_MINUS
  | OP_MULTIPLY
  | OP_DIVIDE
  | OP_MODULO
  | OP_POWER
  | OP_FACTORIAL
deriving DecidableEq

/-- Error codes, `BasicError` of `basic.h`. -/
inductive BasicError where
  | ERROR_NONE
  | ERROR_INVALID_EXPRESSION
  | ERROR_SYNTAX_ERROR
  | ERROR_DIVISION_BY_ZERO
  | ERROR_UNKNOWN_VARIABLE
  | ERROR_INVALID_VARIABLE
  | ERROR_UNKNOWN_COMMAND
  | ERROR_MISSING_EXPRESSION
  | ERROR_MISSING_OPERATOR
  | ERROR_MISSING_VALUE
  | ERROR_INVALID_NUMBER
deriving DecidableEq

open TokenType OperatorType BasicError

/-- The struct `Token` of `basic.h`: a type and the text it owns. -/
structure Token where
  type : TokenType
  value : List Char
deriving DecidableEq

/-- The global `variables[26]` of `basic.c`: slot `k` holds the value of the
letter `'A' + k`.  Only the slots 0..25 are ever read or written. -/
abbrev Store := Nat → Int

/-- The outcome of running a C function of the interpreter. -/
inductive Run (α : Type) where
  /-- The function returned. -/
  | ret (a : α)
  /-- The function reached an `int` division whose behaviour is undefined. -/
  | fault
  /-- The fuel of the model ran out. -/
  | starved
deriving DecidableEq

/-- The array `variables` after `basic_init`: every slot is 0. -/
def basic_init : Store := fun _ => 0

/-! ## Machine integers and the C library -/

/-- The constant `INT_MAX` of `limits.h` for a 32-bit `int`. -/
def INT_MAX : Int := 2147483647

/-- The constant `INT_MIN` of `limits.h` for a 32-bit `int`. -/
def INT_MIN : Int := -2147483648

/-- Two's complement reduction of an integer to the signed 32-bit range. -/
def wrap32 (x : Int) : Int := (x + 2147483648) % 4294967296 - 2147483648

/-- The library predicate `isdigit` (C locale). -/
def isdigit (c : Char) : Bool := decide (48 ≤ c.toNat ∧ c.toNat ≤ 57)

/-- The library predicate `isalpha` (C locale): an ASCII letter. -/
def isalpha (c : Char) : Bool :=
  decide ((97 ≤ c.toNat ∧ c.toNat ≤ 122) ∨ (65 ≤ c.toNat ∧ c.toNat ≤ 90))

/-- The library predicate `isspace` (C locale). -/
def isspace (c : Char) : Bool :=
  decide (c.toNat = 32 ∨ (9 ≤ c.toNat ∧ c.toNat ≤ 13))

/-- The digit loop of `strtol`: the value of the leading run of digits of the
text, accumulated from `acc`. -/
def digitsValue : List Char → Nat → Nat
  | [], acc => acc
  | c :: cs, acc => if isdigit c then digitsValue cs (acc * 10 + (c.toNat - 48)) else acc

/-- The library function `strtol(s, NULL, 10)` for a 64-bit `long`: blanks are
skipped, an optional sign is read, the digits are accumulated and the value
is clamped to the range of `long`. -/
def strtol (s : List Char) : Int :=
  let body := s.dropWhile isspace
  let v : Int :=
    match body with
    | '-' :: cs => - (digitsValue cs 0 : Int)
    | '+' :: cs => (digitsValue cs 0 : Int)
    | cs => (digitsValue cs 0 : Int)
  max (-9223372036854775808) (min 9223372036854775807 v)

/-- The library function `atoi`, which is `(int) strtol(s, NULL, 10)`. -/
def atoi (s : List Char) : Int := wrap32 (strtol s)

/-- The decimal digits of a natural number, most significant first. -/
def natDigits : Nat → Nat → List Char → List Char
  | 0, _, acc => acc
  | fuel + 1, n, acc =>
    let acc1 := Char.ofNat (48 + n % 10) :: acc
    if n / 10 = 0 then acc1 else natDigits fuel (n / 10) acc1

/-- The text `sprintf` and `printf` produce for the conversion `%d`. -/
def showInt (x : Int) : List Char :=
  if x < 0 then '-' :: natDigits (x.natAbs + 1) x.natAbs []
  else natDigits (x.toNat + 1) x.toNat []

/-! ## The variable store (`get_variable_value`, `set_variable_value`) -/

/-- The function `get_variable_value`: the slot of an uppercase letter, and 0
for every other character. -/
def get_variable_value (vars : Store) (var_name : Char) : Int :=
  if 65 ≤ var_name.toNat ∧ var_name.toNat ≤ 90 then vars (var_name.toNat - 65) else 0

/-- The function `set_variable_value`: writes the slot of an uppercase letter
and does nothing for every other character. -/
def set_variable_value (vars : Store) (var_name : Char) (value : Int) : Store :=
  if 65 ≤ var_name.toNat ∧ var_name.toNat ≤ 90 then
    fun k => if k = var_name.toNat - 65 then value else vars k
  else vars

/-! ## The tokenizer (`basic_tokenize`) -/

/-- The helper `skip_whitespace`: the text after the leading spaces and tabs. -/
def skip_whitespace (str : List Char) : List Char :=
  str.dropWhile (fun c => c == ' ' || c == '\t')

/-- The character a pointer into a C string points at: the head of the rest
of the text, and NUL at its end. -/
def peek (ptr : List Char) : Char := ptr.headD (Char.ofNat 0)

/-- The loop of `basic_tokenize`.  `ptr` is the text not yet read and `tokens`
the tokens written so far; `ret none` is the C function returning 0 and
`ret (some ts)` is it returning 1 with `*count` tokens `ts`.  Every `malloc`
is taken to succeed and the buffer of the caller to have room for every token
(the function itself never checks the size of the buffer). -/
def tokenize_loop : Nat → List Char → List Token → Run (Option (List Token))
  | 0, _, _ => Run.starved
  | fuel + 1, ptr, tokens =>
    match skip_whitespace ptr with
    | [] => Run.ret (some tokens)
    | c :: rest =>
      if c = Char.ofNat 0 then Run.ret (some tokens)
      else if isalpha c then
        let token_str := (c :: rest).takeWhile isalpha
        let ptr1 := (c :: rest).dropWhile isalpha
        if token_str = ['L', 'E', 'T'] ∨ token_str = ['P', 'R', 'I', 'N', 'T']
            ∨ token_str = ['E', 'X', 'I', 'T'] then
          tokenize_loop fuel ptr1 (tokens ++ [⟨TOKEN_KEYWORD, token_str⟩])
        else if token_str.length = 1 ∧ 65 ≤ (peek token_str).toNat
            ∧ (peek token_str).toNat ≤ 90 then
          tokenize_loop fuel ptr1 (tokens ++ [⟨TOKEN_VARIABLE, token_str⟩])
        else Run.ret none
      else if isdigit c || ((c == '-' || c == '+') && isdigit (peek rest)) then
        let signed : Bool := c == '-' || c == '+'
        let body := if signed then rest else c :: rest
        let digits := body.takeWhile isdigit
        let ptr1 := body.dropWhile isdigit
        let token_str := if signed then c :: digits else digits
        tokenize_loop fuel ptr1 (tokens ++ [⟨TOKEN_NUMBER, token_str⟩])
      else if c ∈ ['+', '-', '*', '/', '%', '^', '=', '!'] then
        tokenize_loop fuel rest (tokens ++ [⟨TOKEN_OPERATOR, [c]⟩])
      else if c = '(' then
        tokenize_loop fuel rest (tokens ++ [⟨TOKEN_PAREN_OPEN, ['(']⟩])
      else if c = ')' then
        tokenize_loop fuel rest (tokens ++ [⟨TOKEN_PAREN_CLOSE, [')']⟩])
      else Run.ret none

/-- The function `basic_tokenize` on the text of a line.  Every round of the
loop that does not finish reads at least one character, so the length of the
line plus one is enough fuel. -/
def basic_tokenize (input : List Char) : Run (Option (List Token)) :=
  tokenize_loop (input.length + 1) input []

/-! ## The expression evaluator -/

/-- The token `tokens[i]`.  The source reads only positions inside the buffer;
the value for a position outside it is the zero token `{0}`. -/
def tokAt (tokens : List Token) (i : Nat) : Token := tokens.getD i ⟨TOKEN_NONE, []⟩

/-- The helper `get_operator_type`, which looks at the first character. -/
def get_operator_type (op : List Char) : OperatorType :=
  match op with
  | '+' :: _ => OP_PLUS
  | '-' :: _ => OP_MINUS
  | '*' :: _ => OP_MULTIPLY
  | '/' :: _ => OP_DIVIDE
  | '%' :: _ => OP_MODULO
  | '^' :: _ => OP_POWER
  | '!' :: _ => OP_FACTORIAL
  | _ => OP_NONE

/-- The loop of `find_matching_paren`: `n` positions are left to visit from
`i` on, with the current `depth`; the result is the position returned from
inside the loop, or `none` when the loop runs to its end. -/
def find_paren_loop (tokens : List Token) : Nat → Nat → Int → Option Nat
  | 0, _, _ => none
  | n + 1, i, depth =>
    if (tokAt tokens i).type = TOKEN_PAREN_OPEN then
      find_paren_loop tokens n (i + 1) (depth + 1)
    else if (tokAt tokens i).type = TOKEN_PAREN_CLOSE then
      if depth - 1 = 0 then some i else find_paren_loop tokens n (i + 1) (depth - 1)
    else find_paren_loop tokens n (i + 1) depth

/-- The helper `find_matching_paren`: the returned position and the value of
`*error` afterwards.  The depth starts at 1 and the scan starts at `start`. -/
def find_matching_paren (tokens : List Token) (start last : Nat) (error : BasicError) :
    Nat × BasicError :=
  match find_paren_loop tokens (last + 1 - start) start 1 with
  | some i => (i, error)
  | none => (0, ERROR_SYNTAX_ERROR)

/-- The loop of `calculate_factorial`: `n` rounds, multiplying by `n`, `n-1`,
down to 1. -/
def factorial_loop : Nat → Int → Int
  | 0, result => result
  | n + 1, result => factorial_loop n (wrap32 (result * ((n : Int) + 1)))

/-- The helper `calculate_factorial`: the returned value and the value of
`*error` afterwards (which is left as it was when the call succeeds). -/
def calculate_factorial (n : Int) (error : BasicError) : Int × BasicError :=
  if n < 0 then (0, ERROR_INVALID_EXPRESSION)
  else if n > 12 then (0, ERROR_INVALID_EXPRESSION)
  else (factorial_loop n.toNat 1, error)

/-- The compaction loops of `evaluate_subexpression`: `n` rounds of
`tokens[j] = tokens[j + shift]` from position `j` on. -/
def shift_tokens (shift : Nat) : Nat → Nat → List Token → List Token
  | 0, _, tokens => tokens
  | n + 1, j, tokens => shift_tokens shift n (j + 1) (tokens.set j (tokAt tokens (j + shift)))

/-- The loop of the power case: `current` rounds of `result *= base`. -/
def power_loop (base : Int) : Nat → Int → Int
  | 0, result => result
  | n + 1, result => power_loop base n (wrap32 (result * base))

/-- The result of one pass through the `switch` of `evaluate_subexpression`. -/
inductive Step where
  /-- The case ended in `break` with this new `result`. -/
  | next (result : Int)
  /-- The case stored this error and returned 0. -/
  | fail (error : BasicError)
  /-- The case divided by zero, or divided `INT_MIN` by -1. -/
  | trap
deriving DecidableEq

/-- The `switch (operation)` of `evaluate_subexpression`, applied to `result`
and `current`.  The multiplication case computes `INT_MAX / current` before
anything else, which divides by zero when `current` is 0; the division and
modulo cases test `current == 0` first and then divide, which overflows for
`INT_MIN` and -1.  Additions, subtractions and products wrap. -/
def apply_operation (operation : OperatorType) (result current : Int) : Step :=
  match operation with
  | OP_PLUS => Step.next (wrap32 (result + current))
  | OP_MINUS => Step.next (wrap32 (result - current))
  | OP_MULTIPLY =>
    if current = 0 then Step.trap
    else if result > Int.tdiv INT_MAX current then Step.fail ERROR_INVALID_EXPRESSION
    else Step.next (wrap32 (result * current))
  | OP_DIVIDE =>
    if current = 0 then Step.fail ERROR_DIVISION_BY_ZERO
    else if result = INT_MIN ∧ current = -1 then Step.trap
    else Step.next (Int.tdiv result current)
  | OP_MODULO =>
    if current = 0 then Step.fail ERROR_DIVISION_BY_ZERO
    else if result = INT_MIN ∧ current = -1 then Step.trap
    else Step.next (Int.tmod result current)
  | OP_POWER =>
    if current > 31 then Step.fail ERROR_INVALID_EXPRESSION
    else Step.next (power_loop result current.toNat 1)
  | _ => Step.fail ERROR_INVALID_EXPRESSION

/-- The second loop of `evaluate_subexpression` (the fold of a span without
parentheses and factorials): `n` positions are left from `i` on.  The result
is the returned value and the value of `*error` afterwards. -/
def fold_loop (vars : Store) (tokens : List Token) :
    Nat → Nat → Int → OperatorType → Run (Int × BasicError)
  | 0, _, result, _ => Run.ret (result, ERROR_NONE)
  | n + 1, i, result, operation =>
    if (tokAt tokens i).type = TOKEN_NUMBER ∨ (tokAt tokens i).type = TOKEN_VARIABLE then
      let current :=
        if (tokAt tokens i).type = TOKEN_NUMBER then atoi (tokAt tokens i).value
        else get_variable_value vars (peek (tokAt tokens i).value)
      match apply_operation operation result current with
      | Step.next result1 => fold_loop vars tokens n (i + 1) result1 operation
      | Step.fail e => Run.ret (0, e)
      | Step.trap => Run.fault
    else if (tokAt tokens i).type = TOKEN_OPERATOR then
      fold_loop vars tokens n (i + 1) result (get_operator_type (tokAt tokens i).value)
    else Run.ret (0, ERROR_INVALID_EXPRESSION)

/-- The part of `evaluate_subexpression` after the first loop: the span check,
the first value and the fold. -/
def evaluate_flat (vars : Store) (tokens : List Token) (start last : Nat) :
    Run (Int × BasicError) :=
  if start > last then Run.ret (0, ERROR_INVALID_EXPRESSION)
  else if (tokAt tokens start).type = TOKEN_NUMBER then
    fold_loop vars tokens (last - start) (start + 1) (atoi (tokAt tokens start).value) OP_PLUS
  else if (tokAt tokens start).type = TOKEN_VARIABLE then
    fold_loop vars tokens (last - start) (start + 1)
      (get_variable_value vars (peek (tokAt tokens start).value)) OP_PLUS
  else Run.ret (0, ERROR_INVALID_EXPRESSION)

/-- What a call of the evaluator leaves behind: the returned value, the token
buffer and the value of `*error`. -/
structure EvalResult where
  value : Int
  tokens : List Token
  error : BasicError
deriving DecidableEq

/-- The function `evaluate_subexpression`, entered at position `i` of its first
loop with the span `[start, last]`.  A parenthesis calls the function again on
the interior (position `i + 1` of the span `[i + 1, close - 1]`); after a
reduction the loop starts again at `start`; when the loop is over the span is
folded by `evaluate_flat`. -/
def reduce_loop (vars : Store) :
    Nat → List Token → Nat → Nat → Nat → BasicError → Run EvalResult
  | 0, _, _, _, _, _ => Run.starved
  | fuel + 1, tokens, start, i, last, error =>
    if i > last then
      match evaluate_flat vars tokens start last with
      | Run.ret (value, error1) => Run.ret ⟨value, tokens, error1⟩
      | Run.fault => Run.fault
      | Run.starved => Run.starved
    else if (tokAt tokens i).type = TOKEN_PAREN_OPEN then
      let found := find_matching_paren tokens i last error
      if found.2 ≠ ERROR_NONE then Run.ret ⟨0, tokens, found.2⟩
      else
        match reduce_loop vars fuel tokens (i + 1) (i + 1) (found.1 - 1) found.2 with
        | Run.ret inner =>
          if inner.error ≠ ERROR_NONE then Run.ret ⟨0, inner.tokens, inner.error⟩
          else
            let tokens1 := inner.tokens.set i ⟨TOKEN_NUMBER, showInt inner.value⟩
            let shift_amount := found.1 - i
            let tokens2 := shift_tokens shift_amount (last - shift_amount - i) (i + 1) tokens1
            reduce_loop vars fuel tokens2 start start (last - shift_amount) inner.error
        | Run.fault => Run.fault
        | Run.starved => Run.starved
    else if (tokAt tokens i).type = TOKEN_NUMBER ∧ i + 1 ≤ last
        ∧ (tokAt tokens (i + 1)).type = TOKEN_OPERATOR
        ∧ get_operator_type (tokAt tokens (i + 1)).value = OP_FACTORIAL then
      let computed := calculate_factorial (atoi (tokAt tokens i).value) error
      if computed.2 ≠ ERROR_NONE then Run.ret ⟨0, tokens, computed.2⟩
      else
        let tokens1 := tokens.set i ⟨TOKEN_NUMBER, showInt computed.1⟩
        let tokens2 := shift_tokens 1 (last - 1 - i) (i + 1) tokens1
        reduce_loop vars fuel tokens2 start start (last - 1) computed.2
    else reduce_loop vars fuel tokens start (i + 1) last error

/-- Fuel that is enough for `reduce_loop` on a span of `count` tokens: a
reduction shortens the span, and between two reductions the loop visits each
position at most once. -/
def eval_fuel (count : Nat) : Nat := count * count + count + 1

/-- The function `evaluate_subexpression` on the span `[start, last]`. -/
def evaluate_subexpression (vars : Store) (tokens : List Token) (start last : Nat)
    (error : BasicError) : Run EvalResult :=
  reduce_loop vars (eval_fuel (last + 1 - start)) tokens start start last error

/-- The balance loop of `evaluate_expression`: `none` when the depth goes
below zero, and the final depth otherwise. -/
def balance_loop : List Token → Int → Option Int
  | [], depth => some depth
  | t :: rest, depth =>
    if t.type = TOKEN_PAREN_OPEN then balance_loop rest (depth + 1)
    else if t.type = TOKEN_PAREN_CLOSE then
      if depth - 1 < 0 then none else balance_loop rest (depth - 1)
    else balance_loop rest depth

/-- The function `evaluate_expression` on a buffer of `count = tokens.length`
tokens. -/
def evaluate_expression (vars : Store) (tokens : List Token) (error : BasicError) :
    Run EvalResult :=
  if tokens.length = 0 then Run.ret ⟨0, tokens, ERROR_INVALID_EXPRESSION⟩
  else
    match balance_loop tokens 0 with
    | none => Run.ret ⟨0, tokens, ERROR_SYNTAX_ERROR⟩
    | some depth =>
      if depth ≠ 0 then Run.ret ⟨0, tokens, ERROR_SYNTAX_ERROR⟩
      else evaluate_subexpression vars tokens 0 (tokens.length - 1) error

/-! ## The statement dispatcher (`basic_parse`) -/

/-- What a call of `basic_parse` leaves behind: the returned code, the value
of `*error`, the text written to the standard output, the variable store and
the token buffer. -/
structure ParseResult where
  code : Int
  error : BasicError
  output : List Char
  vars : Store
  tokens : List Token

/-- The function `basic_parse` on a buffer of `count = tokens.length` tokens,
with the store and the value of `*error` on entry.  The expression of a
`PRINT` is the buffer `&tokens[1]` and that of a `LET` is `&tokens[3]`. -/
def basic_parse (vars : Store) (tokens : List Token) (error : BasicError) :
    Run ParseResult :=
  if tokens.length = 0 then Run.ret ⟨0, ERROR_NONE, [], vars, tokens⟩
  else if (tokAt tokens 0).type ≠ TOKEN_KEYWORD then
    Run.ret ⟨0, ERROR_SYNTAX_ERROR, [], vars, tokens⟩
  else if (tokAt tokens 0).value = ['E', 'X', 'I', 'T'] then
    Run.ret ⟨-1, ERROR_NONE, [], vars, tokens⟩
  else if (tokAt tokens 0).value = ['P', 'R', 'I', 'N', 'T'] then
    if tokens.length < 2 then Run.ret ⟨0, ERROR_SYNTAX_ERROR, [], vars, tokens⟩
    else
      match evaluate_expression vars (tokens.drop 1) error with
      | Run.ret r =>
        Run.ret ⟨1, r.error,
          if r.error = ERROR_NONE then showInt r.value ++ ['\n'] else [],
          vars, tokens.take 1 ++ r.tokens⟩
      | Run.fault => Run.fault
      | Run.starved => Run.starved
  else if (tokAt tokens 0).value = ['L', 'E', 'T'] then
    if tokens.length < 4 then Run.ret ⟨0, ERROR_SYNTAX_ERROR, [], vars, tokens⟩
    else if (tokAt tokens 1).type ≠ TOKEN_VARIABLE then
      Run.ret ⟨0, ERROR_INVALID_VARIABLE, [], vars, tokens⟩
    else if (tokAt tokens 2).type ≠ TOKEN_OPERATOR ∨ (tokAt tokens 2).value ≠ ['='] then
      Run.ret ⟨0, ERROR_SYNTAX_ERROR, [], vars, tokens⟩
    else
      match evaluate_expression vars (tokens.drop 3) error with
      | Run.ret r =>
        Run.ret ⟨1, r.error, [],
          if r.error = ERROR_NONE then
            set_variable_value vars (peek (tokAt tokens 1).value) r.value
          else vars,
          tokens.take 3 ++ r.tokens⟩
      | Run.fault => Run.fault
      | Run.starved => Run.starved
  else Run.ret ⟨0, ERROR_UNKNOWN_COMMAND, [], vars, tokens⟩

/-! ## Tokens and observations used in the statements -/

/-- A Keyword token with the given text. -/
def kw (text : String) : Token := ⟨TOKEN_KEYWORD, text.toList⟩

/-- A Number token with the given text. -/
def num (text : String) : Token := ⟨TOKEN_NUMBER, text.toList⟩

/-- A Variable token for the given letter. -/
def var (letter : Char) : Token := ⟨TOKEN_VARIABLE, [letter]⟩

/-- An Operator token with the given text. -/
def op (text : String) : Token := ⟨TOKEN_OPERATOR, text.toList⟩

/-- The token of an opening parenthesis. -/
def popen : Token := ⟨TOKEN_PAREN_OPEN, ['(']⟩

/-- The token of a closing parenthesis. -/
def pclose : Token := ⟨TOKEN_PAREN_CLOSE, [')']⟩

/-- The returned value and the error kind of a run of the evaluator, without
the token buffer it leaves behind. -/
def outcome (r : Run EvalResult) : Run (Int × BasicError) :=
  match r with
  | Run.ret e => Run.ret (e.value, e.error)
  | Run.fault => Run.fault
  | Run.starved => Run.starved

/-- The text a run of `basic_parse` printed, when the call returned. -/
def printed (r : Run ParseResult) : Option (List Char) :=
  match r with
  | Run.ret p => some p.output
  | _ => none

/-- The error kind a run of `basic_parse` finished with, when the call
returned. -/
def errorOf (r : Run ParseResult) : Option BasicError :=
  match r with
  | Run.ret p => some p.error
  | _ => none

/-- The code a run of `basic_parse` returned, when the call returned. -/
def codeOf (r : Run ParseResult) : Option Int :=
  match r with
  | Run.ret p => some p.code
  | _ => none

/-- The variable store after a run of `basic_parse`, when the call returned. -/
def storeOf (r : Run ParseResult) : Option Store :=
  match r with
  | Run.ret p => some p.vars
  | _ => none

/-! ## The balance condition in the words of the specification -/

/-- The running depth of the spec after the first `k` tokens: the number of
ParenOpen tokens among them minus the number of ParenClose tokens. -/
def spec_running_depth (tokens : List Token) (k : Nat) : Int :=
  ((tokens.take k).countP (fun t => t.type = TOKEN_PAREN_OPEN) : Int)
    - ((tokens.take k).countP (fun t => t.type = TOKEN_PAREN_CLOSE) : Int)

/-- The spec's unbalanced sequences: the running depth is negative at some
position, or it is not zero at the end. -/
def spec_unbalanced (tokens : List Token) : Prop :=
  (∃ k, k ≤ tokens.length ∧ spec_running_depth tokens k < 0)
    ∨ spec_running_depth tokens tokens.length ≠ 0

/-! ## Flat spans in the words of the specification -/

/-- A flat span in the words of the glossary: a token sequence with no
parenthesis token and no factorial operator. -/
def spec_flat (tokens : List Token) : Prop :=
  ∀ t ∈ tokens, t.type ≠ TOKEN_PAREN_OPEN ∧ t.type ≠ TOKEN_PAREN_CLOSE
    ∧ ¬ (t.type = TOKEN_OPERATOR ∧ get_operator_type t.value = OP_FACTORIAL)

/-! ## Decimal literals in the words of the specification -/

/-- The number a run of decimal digits denotes, most significant digit
first. -/
def spec_digits_value (digits : List Char) : Nat :=
  digits.foldl (fun acc c => acc * 10 + (c.toNat - 48)) 0

/-- A decimal literal in the words of the specification (one or more digits,
optionally signed) and the integer it denotes; `none` for any other text. -/
def spec_literal (text : List Char) : Option Int :=
  match text with
  | '-' :: digits =>
    if digits ≠ [] ∧ digits.all isdigit = true then some (-(spec_digits_value digits : Int))
    else none
  | '+' :: digits =>
    if digits ≠ [] ∧ digits.all isdigit = true then some (spec_digits_value digits : Int)
    else none
  | digits =>
    if digits ≠ [] ∧ digits.all isdigit = true then some (spec_digits_value digits : Int)
    else none

/-! ## Parenthesis depth by position -/

/-- The change of the parenthesis depth a token causes: +1 for a ParenOpen,
-1 for a ParenClose and 0 for every other token. -/
def paren_weight (t : Token) : Int :=
  if t.type = TOKEN_PAREN_OPEN then 1 else if t.type = TOKEN_PAREN_CLOSE then -1 else 0

/-- The parenthesis depth after the `m` tokens at the positions `start`,
`start + 1`, up to `start + m - 1` of the buffer. -/
def prefix_depth (tokens : List Token) (start : Nat) : Nat → Int
  | 0 => 0
  | m + 1 => prefix_depth tokens start m + paren_weight (tokAt tokens (start + m))

/-! ## The left-to-right fold in the words of the specification -/

/-- A value token of the specification: a Number or a Variable. -/
def spec_value_token (t : Token) : Prop :=
  t.type = TOKEN_NUMBER ∨ t.type = TOKEN_VARIABLE

/-- A binary operator token of the specification: an Operator whose text is
one of `+ - * / % ^`. -/
def spec_binary_operator (t : Token) : Prop :=
  t.type = TOKEN_OPERATOR ∧ ∃ c ∈ ['+', '-', '*', '/', '%', '^'], t.value = [c]

/-- The value a Number or Variable token supplies: the number it denotes, or
the stored value of the variable. -/
def operand (vars : Store) (t : Token) : Int :=
  if t.type = TOKEN_NUMBER then atoi t.value else get_variable_value vars (peek t.value)

/-- The token sequence `op1 v1 op2 v2 ...` of a list of pairs of an operator
token and a value token. -/
def alternate : List (Token × Token) → List Token
  | [] => []
  | (o, v) :: rest => o :: v :: alternate rest

/-- The exact integer the binary operator with the given symbol denotes:
`/` and `%` truncate toward zero, and `^` multiplies `a` by itself `b` times
(no times when `b` is negative). -/
def spec_exact (symbol : Char) (a b : Int) : Int :=
  if symbol = '+' then a + b
  else if symbol = '-' then a - b
  else if symbol = '*' then a * b
  else if symbol = '/' then Int.tdiv a b
  else if symbol = '%' then Int.tmod a b
  else a ^ b.toNat

/-- The binary operator on 32-bit integers: the exact result of `+`, `-`, `*`
and `^` is reduced to the signed 32-bit range, and `/` and `%` are exact. -/
def spec_binop (symbol : Char) (a b : Int) : Int :=
  if symbol = '/' ∨ symbol = '%' then spec_exact symbol a b
  else wrap32 (spec_exact symbol a b)

/-- The left-associative value `(((v0 op1 v1) op2 v2) ... opn vn)` on 32-bit
integers, from `v0` and the pairs of an operator symbol and a value. -/
def spec_fold (acc : Int) : List (Char × Int) → Int
  | [] => acc
  | (symbol, v) :: rest => spec_fold (spec_binop symbol acc v) rest

/-- The left-associative value `(((v0 op1 v1) op2 v2) ... opn vn)` in exact
integer arithmetic. -/
def spec_exact_fold (acc : Int) : List (Char × Int) → Int
  | [] => acc
  | (symbol, v) :: rest => spec_exact_fold (spec_exact symbol acc v) rest

/-- Every intermediate exact value of the left-associative evaluation fits a
signed 32-bit integer. -/
def spec_no_overflow (acc : Int) : List (Char × Int) → Prop
  | [] => True
  | (symbol, v) :: rest =>
    (INT_MIN ≤ spec_exact symbol acc v ∧ spec_exact symbol acc v ≤ INT_MAX)
      ∧ spec_no_overflow (spec_exact symbol acc v) rest

/-- No step of the fold fails on `op1 v1 op2 v2 ...` from the value `acc` on:
the `switch` of the code ends in `break` for `op1` and `v1`, and no step fails
on the remaining tokens from the new value on. -/
def no_step_fails (vars : Store) (acc : Int) : List (Token × Token) → Prop
  | [] => True
  | (o, v) :: rest =>
    ∃ r1, apply_operation (get_operator_type o.value) acc (operand vars v) = Step.next r1
      ∧ no_step_fails vars r1 rest

/-! ## Accepted lines in the words of the specification -/

/-- A blank of a line: a space or a tab. -/
def spec_blank (c : Char) : Bool := c == ' ' || c == '\t'

/-- A character that may stand outside the alphabetic runs of an accepted
line: a space, a tab, a digit, one of `+ - * / % ^ = !`, `(` or `)`. -/
def spec_plain_char (c : Char) : Bool :=
  spec_blank c || isdigit c || decide (c ∈ ['+', '-', '*', '/', '%', '^', '=', '!'])
    || c == '(' || c == ')'

/-- An alphabetic run of an accepted line: `LET`, `PRINT`, `EXIT` or a single
uppercase letter (the empty run stands for no run at all). -/
def spec_run_ok (run : List Char) : Bool :=
  decide (run = [] ∨ run = ['L', 'E', 'T'] ∨ run = ['P', 'R', 'I', 'N', 'T']
    ∨ run = ['E', 'X', 'I', 'T']
    ∨ (run.length = 1 ∧ 65 ≤ (peek run).toNat ∧ (peek run).toNat ≤ 90))

/-- The maximal alphabetic runs of a text, in order: `run` is the alphabetic
run that ends just before the text left. -/
def spec_runs_from (run : List Char) : List Char → List (List Char)
  | [] => if run = [] then [] else [run]
  | c :: cs =>
    if isalpha c then spec_runs_from (run ++ [c]) cs
    else (if run = [] then [] else [run]) ++ spec_runs_from [] cs

/-- The maximal runs of alphabetic characters of a line, in order. -/
def spec_alpha_runs (line : List Char) : List (List Char) := spec_runs_from [] line

/-- The lines the specification accepts: every maximal run of alphabetic
characters is `LET`, `PRINT`, `EXIT` or a single uppercase letter, and every
other character is a space, a tab, a digit, an operator character or a
parenthesis. -/
def spec_accepts (line : List Char) : Bool :=
  (spec_alpha_runs line).all spec_run_ok
    && line.all (fun c => isalpha c || spec_plain_char c)

/-- The same check as one pass over the line, character by character: `run`
is the alphabetic run that ends just before the text left. -/
def spec_scan (run : List Char) : List Char → Bool
  | [] => spec_run_ok run
  | c :: cs =>
    if isalpha c then spec_scan (run ++ [c]) cs
    else spec_run_ok run && spec_plain_char c && spec_scan [] cs

/-- The classification of the alphabetic tokens: a token whose text starts
with a letter is a Keyword with the text `LET`, `PRINT` or `EXIT`, or a
Variable whose text is a single uppercase letter. -/
def spec_classified (t : Token) : Prop :=
  isalpha (peek t.value) = true →
    ((t.value = ['L', 'E', 'T'] ∨ t.value = ['P', 'R', 'I', 'N', 'T']
        ∨ t.value = ['E', 'X', 'I', 'T']) ∧ t.type = TOKEN_KEYWORD)
      ∨ ((t.value.length = 1 ∧ 65 ≤ (peek t.value).toNat ∧ (peek t.value).toNat ≤ 90)
        ∧ t.type = TOKEN_VARIABLE)

instance (t : Token) : Decidable (spec_classified t) := by
  unfold spec_classified
  infer_instance

/-- The texts of the tokens that start with a letter, in order. -/
def alphabetic_texts (tokens : List Token) : List (List Char) :=
  (tokens.filter (fun t => isalpha (peek t.value))).map Token.value

/-- The text of a line with all spaces and tabs removed. -/
def spec_without_blanks (line : List Char) : List Char :=
  line.filter (fun c => !spec_blank c)

set_option maxRecDepth 100000

/-! ## The fuel of the entry points is enough -/

/-- A position returned by the loop of `find_matching_paren` lies among the
positions visited and holds a ParenClose token. -/
theorem find_paren_loop_bounds (tokens : List Token) :
    ∀ (n i : Nat) (depth : Int) (c : Nat), find_paren_loop tokens n i depth = some c →
      i ≤ c ∧ c < i + n ∧ (tokAt tokens c).type = TOKEN_PAREN_CLOSE := by
  intro n
  induction n with
  | zero => intro i depth c h; cases h
  | succ n ih =>
    intro i depth c h
    unfold find_paren_loop at h
    split_ifs at h with h1 h2 h3
    · obtain ⟨a, b, e⟩ := ih _ _ _ h
      exact ⟨by omega, by omega, e⟩
    · cases h
      exact ⟨le_refl _, by omega, h2⟩
    · obtain ⟨a, b, e⟩ := ih _ _ _ h
      exact ⟨by omega, by omega, e⟩
    · obtain ⟨a, b, e⟩ := ih _ _ _ h
      exact ⟨by omega, by omega, e⟩

/-- When `find_matching_paren`, called on an opening parenthesis, leaves
`ERROR_NONE` behind, the position it returns lies after the parenthesis and
inside the span. -/
theorem find_matching_paren_bounds (tokens : List Token) (i last : Nat) (error : BasicError)
    (hopen : (tokAt tokens i).type = TOKEN_PAREN_OPEN)
    (hok : (find_matching_paren tokens i last error).2 = ERROR_NONE) :
    i < (find_matching_paren tokens i last error).1
      ∧ (find_matching_paren tokens i last error).1 ≤ last := by
  unfold find_matching_paren at hok ⊢
  cases hf : find_paren_loop tokens (last + 1 - i) i 1 with
  | none => rw [hf] at hok; cases hok
  | some c =>
    obtain ⟨a, b, e⟩ := find_paren_loop_bounds tokens _ _ _ _ hf
    have hne : c ≠ i := by
      rintro rfl
      rw [hopen] at e
      cases e
    simp only
    omega

/-- The fold needs no fuel: it never starves. -/
theorem fold_loop_not_starved (vars : Store) (tokens : List Token) :
    ∀ (n i : Nat) (result : Int) (operation : OperatorType),
      fold_loop vars tokens n i result operation ≠ Run.starved := by
  intro n
  induction n with
  | zero => intro i result operation h; cases h
  | succ n ih =>
    intro i result operation
    rw [fold_loop]
    by_cases hv : (tokAt tokens i).type = TOKEN_NUMBER ∨ (tokAt tokens i).type = TOKEN_VARIABLE
    · rw [if_pos hv]
      dsimp only
      cases apply_operation operation result
          (if (tokAt tokens i).type = TOKEN_NUMBER then atoi (tokAt tokens i).value
            else get_variable_value vars (peek (tokAt tokens i).value)) with
      | next r => exact ih _ _ _
      | fail e => intro h; cases h
      | trap => intro h; cases h
    · rw [if_neg hv]
      by_cases ho : (tokAt tokens i).type = TOKEN_OPERATOR
      · rw [if_pos ho]
        exact ih _ _ _
      · rw [if_neg ho]
        intro h; cases h

/-- The flat part of `evaluate_subexpression` never starves. -/
theorem evaluate_flat_not_starved (vars : Store) (tokens : List Token) (start last : Nat) :
    evaluate_flat vars tokens start last ≠ Run.starved := by
  unfold evaluate_flat
  split_ifs
  · intro h; cases h
  · exact fold_loop_not_starved vars tokens _ _ _ _
  · exact fold_loop_not_starved vars tokens _ _ _ _
  · intro h; cases h

/-- The first loop of `evaluate_subexpression` finishes within
`k + 1 + L * L` rounds of fuel, where `L` is the length of the span and `k`
the number of positions left in the current pass. -/
theorem reduce_loop_not_starved (vars : Store) :
    ∀ (fuel : Nat) (tokens : List Token) (start i last : Nat) (error : BasicError),
      start ≤ i → i ≤ last + 1 →
      (last + 1 - i) + 1 + (last + 1 - start) * (last + 1 - start) ≤ fuel →
      reduce_loop vars fuel tokens start i last error ≠ Run.starved := by
  intro fuel
  induction fuel with
  | zero => intro tokens start i last error _ _ hb; omega
  | succ fuel ih =>
    intro tokens start i last error hsi hil hb
    rw [reduce_loop]
    by_cases hi : i > last
    · rw [if_pos hi]
      have := evaluate_flat_not_starved vars tokens start last
      cases hf : evaluate_flat vars tokens start last with
      | ret a => intro h; cases h
      | fault => intro h; cases h
      | starved => exact absurd hf this
    · rw [if_neg hi]
      have hkL : last + 1 - i ≤ last + 1 - start := by omega
      have hsq := Nat.mul_le_mul hkL hkL
      by_cases hopen : (tokAt tokens i).type = TOKEN_PAREN_OPEN
      · rw [if_pos hopen]
        dsimp only
        by_cases hfound : (find_matching_paren tokens i last error).2 ≠ ERROR_NONE
        · rw [if_pos hfound]
          intro h; cases h
        · rw [if_neg hfound]
          have hok : (find_matching_paren tokens i last error).2 = ERROR_NONE := by
            simpa using hfound
          obtain ⟨hlt, hle⟩ := find_matching_paren_bounds tokens i last error hopen hok
          generalize (find_matching_paren tokens i last error).1 = c at hlt hle ⊢
          generalize (find_matching_paren tokens i last error).2 = e1
          have ha : c - 1 + 1 - (i + 1) ≤ last + 1 - i := by omega
          have hsqa := Nat.mul_le_mul ha ha
          have hinner := ih tokens (i + 1) (i + 1) (c - 1) e1 (le_refl _) (by omega)
            (by omega)
          cases hr : reduce_loop vars fuel tokens (i + 1) (i + 1) (c - 1) e1 with
          | starved => exact absurd hr hinner
          | fault => intro h; cases h
          | ret inner =>
            dsimp only
            by_cases hie : inner.error ≠ ERROR_NONE
            · rw [if_pos hie]
              intro h; cases h
            · rw [if_neg hie]
              have hL : last - (c - i) + 1 - start + 1 ≤ last + 1 - start := by omega
              have hsqL := Nat.mul_le_mul hL hL
              apply ih _ start start (last - (c - i)) _ (le_refl _) (by omega)
              nlinarith
      · rw [if_neg hopen]
        by_cases hfact : (tokAt tokens i).type = TOKEN_NUMBER ∧ i + 1 ≤ last
            ∧ (tokAt tokens (i + 1)).type = TOKEN_OPERATOR
            ∧ get_operator_type (tokAt tokens (i + 1)).value = OP_FACTORIAL
        · rw [if_pos hfact]
          dsimp only
          by_cases hcalc : (calculate_factorial (atoi (tokAt tokens i).value) error).2
              ≠ ERROR_NONE
          · rw [if_pos hcalc]
            intro h; cases h
          · rw [if_neg hcalc]
            have hle := hfact.2.1
            have hL : last - 1 + 1 - start + 1 ≤ last + 1 - start := by omega
            have hsqL := Nat.mul_le_mul hL hL
            apply ih _ start start (last - 1) _ (le_refl _) (by omega)
            nlinarith
        · rw [if_neg hfact]
          exact ih tokens start (i + 1) last error (by omega) (by omega) (by omega)

/-- The fuel `eval_fuel` is enough: `evaluate_subexpression` never starves. -/
theorem evaluate_subexpression_not_starved (vars : Store) (tokens : List Token)
    (start last : Nat) (error : BasicError) (h : start ≤ last + 1) :
    evaluate_subexpression vars tokens start last error ≠ Run.starved := by
  unfold evaluate_subexpression eval_fuel
  exact reduce_loop_not_starved vars _ tokens start start last error (le_refl _) h (by omega)

/-- The function `evaluate_expression` returns or faults on every input: it
never starves. -/
theorem evaluate_expression_not_starved (vars : Store) (tokens : List Token)
    (error : BasicError) : evaluate_expression vars tokens error ≠ Run.starved := by
  unfold evaluate_expression
  split_ifs
  · intro h; cases h
  · split
    · intro h; cases h
    · split_ifs
      · intro h; cases h
      · exact evaluate_subexpression_not_starved vars tokens 0 _ error (by omega)

/-- The function `basic_parse` returns or faults on every input: it never
starves. -/
theorem basic_parse_not_starved (vars : Store) (tokens : List Token) (error : BasicError) :
    basic_parse vars tokens error ≠ Run.starved := by
  have key : ∀ (expr : List Token) (f : EvalResult → ParseResult),
      (match evaluate_expression vars expr error with
        | Run.ret r => Run.ret (f r)
        | Run.fault => Run.fault
        | Run.starved => Run.starved) ≠ Run.starved := by
    intro expr f
    have := evaluate_expression_not_starved vars expr error
    cases hr : evaluate_expression vars expr error with
    | ret r => intro h; cases h
    | fault => intro h; cases h
    | starved => exact absurd hr this
  unfold basic_parse
  split_ifs
  all_goals first
    | exact key _ _
    | (intro h; cases h)

/-- Dropping a leading run does not lengthen a text. -/
theorem length_dropWhile_le (p : Char → Bool) (l : List Char) :
    (l.dropWhile p).length ≤ l.length :=
  (List.dropWhile_sublist p).length_le

/-- The loop of the tokenizer finishes within one round more than the length
of the text left. -/
theorem tokenize_loop_not_starved :
    ∀ (fuel : Nat) (ptr : List Char) (tokens : List Token), ptr.length < fuel →
      tokenize_loop fuel ptr tokens ≠ Run.starved := by
  intro fuel
  induction fuel with
  | zero => intro ptr tokens h; omega
  | succ fuel ih =>
    intro ptr tokens hlen
    rw [tokenize_loop]
    have hskip : (skip_whitespace ptr).length ≤ ptr.length := by
      unfold skip_whitespace
      exact length_dropWhile_le _ _
    cases hs : skip_whitespace ptr with
    | nil => intro h; cases h
    | cons c rest =>
      rw [hs] at hskip
      simp only [List.length_cons] at hskip
      dsimp only
      by_cases h0 : c = Char.ofNat 0
      · rw [if_pos h0]; intro h; cases h
      rw [if_neg h0]
      by_cases ha : isalpha c = true
      · rw [if_pos ha]
        have hd : ((c :: rest).dropWhile isalpha).length < fuel := by
          rw [List.dropWhile_cons_of_pos ha]
          have := length_dropWhile_le isalpha rest
          omega
        split_ifs
        · exact ih _ _ hd
        · exact ih _ _ hd
        · intro h; cases h
      rw [if_neg ha]
      by_cases hn : (isdigit c || ((c == '-' || c == '+') && isdigit (peek rest))) = true
      · rw [if_pos hn]
        apply ih
        by_cases hsg : (c == '-' || c == '+') = true
        · simp only [hsg, if_true]
          have := length_dropWhile_le isdigit rest
          omega
        · have hdc : isdigit c = true := by
            simp only [Bool.not_eq_true] at hsg
            simpa [hsg] using hn
          simp only [hsg, if_false, Bool.false_eq_true]
          rw [List.dropWhile_cons_of_pos hdc]
          have := length_dropWhile_le isdigit rest
          omega
      rw [if_neg hn]
      split_ifs
      · exact ih _ _ (by omega)
      · exact ih _ _ (by omega)
      · exact ih _ _ (by omega)
      · intro h; cases h

/-- The function `basic_tokenize` returns on every line: it never starves. -/
theorem basic_tokenize_not_starved (input : List Char) :
    basic_tokenize input ≠ Run.starved :=
  tokenize_loop_not_starved _ input [] (Nat.lt_succ_self _)

/-! ## Parenthesised groups -/

/-- C1 (the code departs from the claim): the line `((1+2)*3)` is tokenised
into eight tokens and `evaluate_expression` on them, entered with
`ERROR_NONE`, returns 0 with `ERROR_SYNTAX_ERROR` instead of 9 with
`ERROR_NONE`; and although the interior `1` evaluates to 1 without error,
the balanced expression `(1)` is rejected with `ERROR_SYNTAX_ERROR` too. -/
theorem paren_group_rejected (vars : Store) :
    basic_tokenize "((1+2)*3)".toList
        = Run.ret (some [popen, popen, num "1", num "+2", pclose, op "*", num "3", pclose])
      ∧ evaluate_expression vars
          [popen, popen, num "1", num "+2", pclose, op "*", num "3", pclose] ERROR_NONE
        = Run.ret ⟨0, [popen, popen, num "1", num "+2", pclose, op "*", num "3", pclose],
            ERROR_SYNTAX_ERROR⟩
      ∧ evaluate_expression vars [num "1"] ERROR_NONE = Run.ret ⟨1, [num "1"], ERROR_NONE⟩
      ∧ evaluate_expression vars [popen, num "1", pclose] ERROR_NONE
        = Run.ret ⟨0, [popen, num "1", pclose], ERROR_SYNTAX_ERROR⟩ :=
  ⟨by decide, rfl, rfl, rfl⟩

/-! ## Left-to-right evaluation of real lines -/

/-- C2 (counterexample): the line `PRINT 2*3+4` is tokenised with `+4` as one
Number token, and executing it prints 24, not 14. -/
theorem print_2_mul_3_plus_4_not_14 :
    basic_tokenize "PRINT 2*3+4".toList
        = Run.ret (some [kw "PRINT", num "2", op "*", num "3", num "+4"])
      ∧ printed (basic_parse basic_init [kw "PRINT", num "2", op "*", num "3", num "+4"]
          ERROR_NONE) = some "24\n".toList
      ∧ printed (basic_parse basic_init [kw "PRINT", num "2", op "*", num "3", num "+4"]
          ERROR_NONE) ≠ some "14\n".toList := by
  decide

/-- C2 (amended): for every store and entry value of the error, the line
`PRINT 2+3*4` prints 20 and the line `PRINT 2*3+4` prints 24, both finishing
with `ERROR_NONE`; in both lines the sign is read as part of the number that
follows it. -/
theorem print_left_to_right_lines (vars : Store) (err : BasicError) :
    basic_tokenize "PRINT 2+3*4".toList
        = Run.ret (some [kw "PRINT", num "2", num "+3", op "*", num "4"])
      ∧ basic_parse vars [kw "PRINT", num "2", num "+3", op "*", num "4"] err
        = Run.ret ⟨1, ERROR_NONE, "20\n".toList, vars,
            [kw "PRINT", num "2", num "+3", op "*", num "4"]⟩
      ∧ basic_tokenize "PRINT 2*3+4".toList
        = Run.ret (some [kw "PRINT", num "2", op "*", num "3", num "+4"])
      ∧ basic_parse vars [kw "PRINT", num "2", op "*", num "3", num "+4"] err
        = Run.ret ⟨1, ERROR_NONE, "24\n".toList, vars,
            [kw "PRINT", num "2", op "*", num "3", num "+4"]⟩ := by
  have h1 : basic_parse vars [kw "PRINT", num "2", num "+3", op "*", num "4"] err
      = Run.ret ⟨1, ERROR_NONE, showInt 20 ++ ['\n'], vars,
          [kw "PRINT", num "2", num "+3", op "*", num "4"]⟩ := rfl
  have h2 : basic_parse vars [kw "PRINT", num "2", op "*", num "3", num "+4"] err
      = Run.ret ⟨1, ERROR_NONE, showInt 24 ++ ['\n'], vars,
          [kw "PRINT", num "2", op "*", num "3", num "+4"]⟩ := rfl
  refine ⟨by decide, ?_, by decide, ?_⟩
  · rw [h1]; rfl
  · rw [h2]; rfl

/-! ## The power bound -/

/-- C4 (counterexample): the line `PRINT 2^31` is not rejected: it finishes
with `ERROR_NONE` and prints a line (the wrapped value -2147483648). -/
theorem print_2_pow_31_accepted :
    basic_tokenize "PRINT 2^31".toList
        = Run.ret (some [kw "PRINT", num "2", op "^", num "31"])
      ∧ errorOf (basic_parse basic_init [kw "PRINT", num "2", op "^", num "31"] ERROR_NONE)
        = some ERROR_NONE
      ∧ printed (basic_parse basic_init [kw "PRINT", num "2", op "^", num "31"] ERROR_NONE)
        = some "-2147483648\n".toList := by
  decide

/-- C4 (amended): for every store and entry value of the error, the line
`PRINT 2^32` fails with `ERROR_INVALID_EXPRESSION`, prints nothing and leaves
the store as it was: the power bound rejects the exponents greater than 31,
and 32 is the first of them. -/
theorem print_2_pow_32_rejected (vars : Store) (err : BasicError) :
    basic_tokenize "PRINT 2^32".toList
        = Run.ret (some [kw "PRINT", num "2", op "^", num "32"])
      ∧ basic_parse vars [kw "PRINT", num "2", op "^", num "32"] err
        = Run.ret ⟨1, ERROR_INVALID_EXPRESSION, [], vars,
            [kw "PRINT", num "2", op "^", num "32"]⟩
      ∧ apply_operation OP_POWER 2 32 = Step.fail ERROR_INVALID_EXPRESSION :=
  ⟨by decide, rfl, rfl⟩

/-! ## Division and modulo by zero -/

/-- C5: for every left operand `a` that is a Number or a Variable token, every
store and every entry value of the error, the flat expressions `a / 0` and
`a % 0` evaluate to `ERROR_DIVISION_BY_ZERO`, and `basic_parse` on
`PRINT a/0` and on `PRINT a%0` prints nothing and leaves the store as it
was. -/
theorem division_by_zero_rejected (a : Token)
    (ha : a.type = TOKEN_NUMBER ∨ a.type = TOKEN_VARIABLE) (vars : Store) (err : BasicError) :
    evaluate_expression vars [a, op "/", num "0"] err
        = Run.ret ⟨0, [a, op "/", num "0"], ERROR_DIVISION_BY_ZERO⟩
      ∧ evaluate_expression vars [a, op "%", num "0"] err
        = Run.ret ⟨0, [a, op "%", num "0"], ERROR_DIVISION_BY_ZERO⟩
      ∧ basic_parse vars [kw "PRINT", a, op "/", num "0"] err
        = Run.ret ⟨1, ERROR_DIVISION_BY_ZERO, [], vars, [kw "PRINT", a, op "/", num "0"]⟩
      ∧ basic_parse vars [kw "PRINT", a, op "%", num "0"] err
        = Run.ret ⟨1, ERROR_DIVISION_BY_ZERO, [], vars, [kw "PRINT", a, op "%", num "0"]⟩ := by
  obtain ⟨ty, text⟩ := a
  simp only at ha
  rcases ha with rfl | rfl
  · exact ⟨rfl, rfl, rfl, rfl⟩
  · exact ⟨rfl, rfl, rfl, rfl⟩

/-- C5 (witness): the lines `PRINT 5/0` and `PRINT 5%0` are tokenised with the
Number `5` as left operand, and the theorem applies to it. -/
theorem division_by_zero_rejected_witness :
    basic_tokenize "PRINT 5/0".toList = Run.ret (some [kw "PRINT", num "5", op "/", num "0"])
      ∧ basic_tokenize "PRINT 5%0".toList
        = Run.ret (some [kw "PRINT", num "5", op "%", num "0"])
      ∧ ((num "5").type = TOKEN_NUMBER ∨ (num "5").type = TOKEN_VARIABLE)
      ∧ (evaluate_expression basic_init [num "5", op "/", num "0"] ERROR_NONE
          = Run.ret ⟨0, [num "5", op "/", num "0"], ERROR_DIVISION_BY_ZERO⟩
        ∧ evaluate_expression basic_init [num "5", op "%", num "0"] ERROR_NONE
          = Run.ret ⟨0, [num "5", op "%", num "0"], ERROR_DIVISION_BY_ZERO⟩
        ∧ basic_parse basic_init [kw "PRINT", num "5", op "/", num "0"] ERROR_NONE
          = Run.ret ⟨1, ERROR_DIVISION_BY_ZERO, [], basic_init,
              [kw "PRINT", num "5", op "/", num "0"]⟩
        ∧ basic_parse basic_init [kw "PRINT", num "5", op "%", num "0"] ERROR_NONE
          = Run.ret ⟨1, ERROR_DIVISION_BY_ZERO, [], basic_init,
              [kw "PRINT", num "5", op "%", num "0"]⟩) :=
  ⟨by decide, by decide, Or.inl rfl,
    division_by_zero_rejected (num "5") (Or.inl rfl) basic_init ERROR_NONE⟩

/-! ## LET and the variable store -/

/-- Reading the slot that was just written gives the written value. -/
theorem get_set_same (vars : Store) (L : Char) (hL : 65 ≤ L.toNat ∧ L.toNat ≤ 90) (v : Int) :
    get_variable_value (set_variable_value vars L v) L = v := by
  simp [get_variable_value, set_variable_value, hL]

/-- Writing the slot of one character leaves the value read for every other
character as it was. -/
theorem get_set_other (vars : Store) (L M : Char) (hne : M ≠ L) (v : Int) :
    get_variable_value (set_variable_value vars L v) M = get_variable_value vars M := by
  unfold get_variable_value set_variable_value
  by_cases hM : 65 ≤ M.toNat ∧ M.toNat ≤ 90
  · by_cases hL : 65 ≤ L.toNat ∧ L.toNat ≤ 90
    · have hne2 : M.toNat ≠ L.toNat := by
        intro heq
        apply hne
        rw [← Char.ofNat_toNat M, ← Char.ofNat_toNat L, heq]
      have : M.toNat - 65 ≠ L.toNat - 65 := by omega
      simp [hM, hL, this]
    · simp [hM, hL]
  · simp [hM]

/-- The empty expression is rejected by the `count == 0` test. -/
theorem evaluate_expression_nil (vars : Store) (err : BasicError) :
    evaluate_expression vars [] err = Run.ret ⟨0, [], ERROR_INVALID_EXPRESSION⟩ := rfl

/-- C6: for every uppercase letter `L` and every expression that evaluates to
`v` without error in the current store, `basic_parse` on `LET L = <expr>`
finishes with `ERROR_NONE` and a store that maps `L` to `v` and gives every
other character its previous value, and a following `PRINT L` (whatever the
entry value of the error) prints `v`. -/
theorem let_stores_result (L : Char) (hL : 65 ≤ L.toNat ∧ L.toNat ≤ 90) (expr : List Token)
    (vars : Store) (err : BasicError) (v : Int) (left : List Token)
    (h : evaluate_expression vars expr err = Run.ret ⟨v, left, ERROR_NONE⟩) :
    basic_parse vars (kw "LET" :: var L :: op "=" :: expr) err
        = Run.ret ⟨1, ERROR_NONE, [], set_variable_value vars L v,
            kw "LET" :: var L :: op "=" :: left⟩
      ∧ get_variable_value (set_variable_value vars L v) L = v
      ∧ (∀ M : Char, M ≠ L →
          get_variable_value (set_variable_value vars L v) M = get_variable_value vars M)
      ∧ ∀ err2 : BasicError,
          basic_parse (set_variable_value vars L v) [kw "PRINT", var L] err2
            = Run.ret ⟨1, ERROR_NONE, showInt v ++ ['\n'], set_variable_value vars L v,
                [kw "PRINT", var L]⟩ := by
  have hne : expr ≠ [] := by
    rintro rfl
    rw [evaluate_expression_nil] at h
    cases h
  obtain ⟨t, rest, rfl⟩ := List.exists_cons_of_ne_nil hne
  refine ⟨?_, get_set_same vars L hL v, fun M hM => get_set_other vars L M hM v, ?_⟩
  · simp [basic_parse, tokAt, kw, var, op, h, peek]
  · intro err2
    have hp : basic_parse (set_variable_value vars L v) [kw "PRINT", var L] err2
        = Run.ret ⟨1, ERROR_NONE,
            showInt (get_variable_value (set_variable_value vars L v) L) ++ ['\n'],
            set_variable_value vars L v, [kw "PRINT", var L]⟩ := rfl
    rw [hp, get_set_same vars L hL v]

/-- C6 (witness): `LET A = 5` then `PRINT A` prints 5. -/
theorem let_stores_result_witness :
    basic_tokenize "LET A = 5".toList = Run.ret (some [kw "LET", var 'A', op "=", num "5"])
      ∧ basic_tokenize "PRINT A".toList = Run.ret (some [kw "PRINT", var 'A'])
      ∧ (65 ≤ 'A'.toNat ∧ 'A'.toNat ≤ 90)
      ∧ evaluate_expression basic_init [num "5"] ERROR_NONE
        = Run.ret ⟨5, [num "5"], ERROR_NONE⟩
      ∧ basic_parse basic_init [kw "LET", var 'A', op "=", num "5"] ERROR_NONE
        = Run.ret ⟨1, ERROR_NONE, [], set_variable_value basic_init 'A' 5,
            [kw "LET", var 'A', op "=", num "5"]⟩
      ∧ get_variable_value (set_variable_value basic_init 'A' 5) 'A' = 5
      ∧ basic_parse (set_variable_value basic_init 'A' 5) [kw "PRINT", var 'A'] ERROR_NONE
        = Run.ret ⟨1, ERROR_NONE, "5\n".toList, set_variable_value basic_init 'A' 5,
            [kw "PRINT", var 'A']⟩ :=
  ⟨by decide, by decide, by decide, rfl,
    (let_stores_result 'A' (by decide) [num "5"] basic_init ERROR_NONE 5 [num "5"] rfl).1,
    (let_stores_result 'A' (by decide) [num "5"] basic_init ERROR_NONE 5 [num "5"] rfl).2.1,
    (let_stores_result 'A' (by decide) [num "5"] basic_init ERROR_NONE 5 [num "5"] rfl).2.2.2
      ERROR_NONE⟩

/-! ## Atomicity on failure -/

/-- C7: whenever `basic_parse` returns with an error other than `ERROR_NONE`,
the store after the call is the store before it and nothing was printed. -/
theorem failed_parse_has_no_effect (vars : Store) (tokens : List Token) (err : BasicError)
    (r : ParseResult) (h : basic_parse vars tokens err = Run.ret r)
    (he : r.error ≠ ERROR_NONE) : r.vars = vars ∧ r.output = [] := by
  unfold basic_parse at h
  split_ifs at h
  all_goals first
    | (cases h; exact ⟨rfl, rfl⟩)
    | skip
  all_goals
    split at h
    · cases h
      simp only at he
      simp [he]
    · cases h
    · cases h

/-- C7 (witness): the line `LET A = 1 + 5 / 0` fails part-way through with
`ERROR_DIVISION_BY_ZERO`; the store is unchanged and nothing is printed. -/
theorem failed_parse_has_no_effect_witness :
    basic_tokenize "LET A = 1 + 5 / 0".toList
        = Run.ret (some [kw "LET", var 'A', op "=", num "1", op "+", num "5", op "/", num "0"])
      ∧ basic_parse basic_init
          [kw "LET", var 'A', op "=", num "1", op "+", num "5", op "/", num "0"] ERROR_NONE
        = Run.ret ⟨1, ERROR_DIVISION_BY_ZERO, [], basic_init,
            [kw "LET", var 'A', op "=", num "1", op "+", num "5", op "/", num "0"]⟩
      ∧ ERROR_DIVISION_BY_ZERO ≠ ERROR_NONE
      ∧ ((⟨1, ERROR_DIVISION_BY_ZERO, [], basic_init,
            [kw "LET", var 'A', op "=", num "1", op "+", num "5", op "/", num "0"]⟩
            : ParseResult).vars = basic_init
        ∧ (⟨1, ERROR_DIVISION_BY_ZERO, [], basic_init,
            [kw "LET", var 'A', op "=", num "1", op "+", num "5", op "/", num "0"]⟩
            : ParseResult).output = []) :=
  ⟨by decide, rfl, by decide,
    failed_parse_has_no_effect basic_init
      [kw "LET", var 'A', op "=", num "1", op "+", num "5", op "/", num "0"] ERROR_NONE
      ⟨1, ERROR_DIVISION_BY_ZERO, [], basic_init,
        [kw "LET", var 'A', op "=", num "1", op "+", num "5", op "/", num "0"]⟩
      rfl (by decide)⟩

/-! ## Unbalanced parentheses -/

/-- The running depth before the first token is 0. -/
theorem spec_running_depth_zero (tokens : List Token) : spec_running_depth tokens 0 = 0 := by
  simp [spec_running_depth]

/-- The running depth after one more token adds 1 for a ParenOpen and
subtracts 1 for a ParenClose. -/
theorem spec_running_depth_cons (t : Token) (rest : List Token) (k : Nat) :
    spec_running_depth (t :: rest) (k + 1)
      = (if t.type = TOKEN_PAREN_OPEN then 1 else 0)
        - (if t.type = TOKEN_PAREN_CLOSE then 1 else 0) + spec_running_depth rest k := by
  simp only [spec_running_depth, List.take_succ_cons, List.countP_cons]
  split_ifs <;> simp_all <;> omega

/-- When the balance loop of the code runs to its end from a depth that is not
negative, the depth it ends with is the running depth of the specification
and no running depth on the way was negative. -/
theorem balance_loop_some (tokens : List Token) :
    ∀ (d d1 : Int), 0 ≤ d → balance_loop tokens d = some d1 →
      d1 = d + spec_running_depth tokens tokens.length
        ∧ ∀ k, k ≤ tokens.length → 0 ≤ d + spec_running_depth tokens k := by
  induction tokens with
  | nil =>
    intro d d1 hd h
    simp only [balance_loop, Option.some.injEq] at h
    subst h
    refine ⟨by simp [spec_running_depth], ?_⟩
    intro k _
    simp [spec_running_depth, hd]
  | cons t rest ih =>
    intro d d1 hd h
    have key : ∀ d2 : Int, 0 ≤ d2 →
        d2 = d + ((if t.type = TOKEN_PAREN_OPEN then 1 else 0)
          - (if t.type = TOKEN_PAREN_CLOSE then 1 else 0)) →
        balance_loop rest d2 = some d1 →
        d1 = d + spec_running_depth (t :: rest) (t :: rest).length
          ∧ ∀ k, k ≤ (t :: rest).length → 0 ≤ d + spec_running_depth (t :: rest) k := by
      intro d2 hd2 hd2eq hrest
      obtain ⟨h1, h2⟩ := ih d2 d1 hd2 hrest
      constructor
      · rw [List.length_cons, spec_running_depth_cons, h1, hd2eq]; ring
      · intro k hk
        cases k with
        | zero => rw [spec_running_depth_zero]; simpa using hd
        | succ k =>
          have := h2 k (by simpa using hk)
          rw [spec_running_depth_cons]
          rw [hd2eq] at this
          linarith
    unfold balance_loop at h
    by_cases ho : t.type = TOKEN_PAREN_OPEN
    · have hc : t.type ≠ TOKEN_PAREN_CLOSE := by rw [ho]; decide
      rw [if_pos ho] at h
      exact key (d + 1) (by omega) (by simp [ho]) h
    · rw [if_neg ho] at h
      by_cases hc : t.type = TOKEN_PAREN_CLOSE
      · rw [if_pos hc] at h
        by_cases hneg : d - 1 < 0
        · rw [if_pos hneg] at h; cases h
        · rw [if_neg hneg] at h
          exact key (d - 1) (by omega) (by simp [ho, hc]; ring) h
      · rw [if_neg hc] at h
        exact key d hd (by simp [ho, hc]) h

/-- C8: for every non-empty token sequence whose running depth (+1 on
ParenOpen, -1 on ParenClose) is negative at some position or is not zero at
the end, `evaluate_expression` returns 0 with `ERROR_SYNTAX_ERROR` and leaves
the tokens as they were, whatever the other tokens, the store and the entry
value of the error are. -/
theorem unbalanced_parens_rejected (tokens : List Token) (hne : tokens ≠ [])
    (hunb : spec_unbalanced tokens) (vars : Store) (err : BasicError) :
    evaluate_expression vars tokens err = Run.ret ⟨0, tokens, ERROR_SYNTAX_ERROR⟩ := by
  have hlen : tokens.length ≠ 0 := by
    intro h0
    exact hne (List.length_eq_zero.mp h0)
  unfold evaluate_expression
  rw [if_neg hlen]
  cases hb : balance_loop tokens 0 with
  | none => rfl
  | some d =>
    obtain ⟨h1, h2⟩ := balance_loop_some tokens 0 d (le_refl 0) hb
    have hd : d ≠ 0 := by
      rcases hunb with ⟨k, hk, hneg⟩ | hfin
      · have := h2 k hk
        omega
      · rw [h1]; simpa using hfin
    simp [hd]

/-- C8 (witness): the lines `(1+2` and `1+2)` are unbalanced and rejected. -/
theorem unbalanced_parens_rejected_witness :
    basic_tokenize "(1+2".toList = Run.ret (some [popen, num "1", num "+2"])
      ∧ basic_tokenize "1+2)".toList = Run.ret (some [num "1", num "+2", pclose])
      ∧ spec_unbalanced [popen, num "1", num "+2"]
      ∧ spec_unbalanced [num "1", num "+2", pclose]
      ∧ evaluate_expression basic_init [popen, num "1", num "+2"] ERROR_NONE
        = Run.ret ⟨0, [popen, num "1", num "+2"], ERROR_SYNTAX_ERROR⟩
      ∧ evaluate_expression basic_init [num "1", num "+2", pclose] ERROR_NONE
        = Run.ret ⟨0, [num "1", num "+2", pclose], ERROR_SYNTAX_ERROR⟩ :=
  ⟨by decide, by decide, Or.inr (by decide), Or.inl ⟨3, by decide, by decide⟩,
    unbalanced_parens_rejected [popen, num "1", num "+2"] (by simp)
      (Or.inr (by decide)) basic_init ERROR_NONE,
    unbalanced_parens_rejected [num "1", num "+2", pclose] (by simp)
      (Or.inl ⟨3, by decide, by decide⟩) basic_init ERROR_NONE⟩

/-! ## Malformed LET -/

/-- C9: for every token sequence whose first token is the keyword `LET`,
`basic_parse` returns 0 and leaves the store as it was and prints nothing,
with `ERROR_SYNTAX_ERROR` when there are fewer than 4 tokens; otherwise with
`ERROR_INVALID_VARIABLE` when `tokens[1]` is not a Variable; otherwise with
`ERROR_SYNTAX_ERROR` when `tokens[2]` is not the Operator `=`. -/
theorem malformed_let_errors (rest : List Token) (vars : Store) (err : BasicError) :
    ((kw "LET" :: rest).length < 4 →
        basic_parse vars (kw "LET" :: rest) err
          = Run.ret ⟨0, ERROR_SYNTAX_ERROR, [], vars, kw "LET" :: rest⟩)
      ∧ (4 ≤ (kw "LET" :: rest).length →
          (tokAt (kw "LET" :: rest) 1).type ≠ TOKEN_VARIABLE →
          basic_parse vars (kw "LET" :: rest) err
            = Run.ret ⟨0, ERROR_INVALID_VARIABLE, [], vars, kw "LET" :: rest⟩)
      ∧ (4 ≤ (kw "LET" :: rest).length →
          (tokAt (kw "LET" :: rest) 1).type = TOKEN_VARIABLE →
          ¬ ((tokAt (kw "LET" :: rest) 2).type = TOKEN_OPERATOR
              ∧ (tokAt (kw "LET" :: rest) 2).value = "=".toList) →
          basic_parse vars (kw "LET" :: rest) err
            = Run.ret ⟨0, ERROR_SYNTAX_ERROR, [], vars, kw "LET" :: rest⟩) := by
  refine ⟨?_, ?_, ?_⟩
  · intro hlen
    have hlen2 : rest.length + 1 < 4 := by simpa using hlen
    simp [basic_parse, tokAt, kw, hlen2]
  · intro hlen hvar
    have hlen2 : ¬ (rest.length + 1 < 4) := by simp at hlen; omega
    simp [basic_parse, kw, hlen2]
    simp [tokAt, kw] at hvar ⊢
    simp [hvar]
  · intro hlen hvar heq
    have hlen2 : ¬ (rest.length + 1 < 4) := by simp at hlen; omega
    simp [basic_parse, kw, hlen2]
    simp [tokAt, kw] at hvar heq ⊢
    simp [hvar]
    tauto

/-- C9 (witness): `LET A 2` and `LET A = ` have three tokens and give
`ERROR_SYNTAX_ERROR`, `LET 1 = 2` gives `ERROR_INVALID_VARIABLE`, and
`LET A 2 3` (four tokens, no `=`) gives `ERROR_SYNTAX_ERROR`. -/
theorem malformed_let_errors_witness :
    basic_tokenize "LET A 2".toList = Run.ret (some [kw "LET", var 'A', num "2"])
      ∧ basic_tokenize "LET A = ".toList = Run.ret (some [kw "LET", var 'A', op "="])
      ∧ basic_tokenize "LET 1 = 2".toList
        = Run.ret (some [kw "LET", num "1", op "=", num "2"])
      ∧ basic_tokenize "LET A 2 3".toList
        = Run.ret (some [kw "LET", var 'A', num "2", num "3"])
      ∧ basic_parse basic_init [kw "LET", var 'A', num "2"] ERROR_NONE
        = Run.ret ⟨0, ERROR_SYNTAX_ERROR, [], basic_init, [kw "LET", var 'A', num "2"]⟩
      ∧ basic_parse basic_init [kw "LET", var 'A', op "="] ERROR_NONE
        = Run.ret ⟨0, ERROR_SYNTAX_ERROR, [], basic_init, [kw "LET", var 'A', op "="]⟩
      ∧ basic_parse basic_init [kw "LET", num "1", op "=", num "2"] ERROR_NONE
        = Run.ret ⟨0, ERROR_INVALID_VARIABLE, [], basic_init,
            [kw "LET", num "1", op "=", num "2"]⟩
      ∧ basic_parse basic_init [kw "LET", var 'A', num "2", num "3"] ERROR_NONE
        = Run.ret ⟨0, ERROR_SYNTAX_ERROR, [], basic_init,
            [kw "LET", var 'A', num "2", num "3"]⟩ :=
  ⟨by decide, by decide, by decide, by decide,
    (malformed_let_errors [var 'A', num "2"] basic_init ERROR_NONE).1 (by decide),
    (malformed_let_errors [var 'A', op "="] basic_init ERROR_NONE).1 (by decide),
    (malformed_let_errors [num "1", op "=", num "2"] basic_init ERROR_NONE).2.1
      (by decide) (by decide),
    (malformed_let_errors [var 'A', num "2", num "3"] basic_init ERROR_NONE).2.2
      (by decide) (by decide) (by decide)⟩

/-! ## Factorial -/


/-- On a run of digits the digit loop of `strtol` is the positional value. -/
theorem digitsValue_all_digits (digits : List Char) (h : digits.all isdigit = true) :
    ∀ acc : Nat, digitsValue digits acc
      = digits.foldl (fun acc c => acc * 10 + (c.toNat - 48)) acc := by
  induction digits with
  | nil => intro acc; rfl
  | cons c cs ih =>
    intro acc
    simp only [List.all_cons, Bool.and_eq_true] at h
    simp only [digitsValue, h.1, if_true, List.foldl_cons]
    exact ih h.2 _

/-- A value in the range of `int` is not changed by the wrap. -/
theorem wrap32_of_range (x : Int) (h : INT_MIN ≤ x ∧ x ≤ INT_MAX) : wrap32 x = x := by
  unfold INT_MIN INT_MAX at h
  unfold wrap32
  omega

/-- A digit is not a blank. -/
theorem isspace_false_of_isdigit (c : Char) (h : isdigit c = true) : isspace c = false := by
  simp only [isdigit, decide_eq_true_eq] at h
  simp only [isspace, decide_eq_false_iff_not]
  omega

/-- A text that starts with a digit has no leading blanks to skip. -/
theorem strtol_digits (digits : List Char) (hne : digits ≠ [])
    (h : digits.all isdigit = true) :
    digits.dropWhile isspace = digits := by
  obtain ⟨c, cs, rfl⟩ := List.exists_cons_of_ne_nil hne
  simp only [List.all_cons, Bool.and_eq_true] at h
  simp [List.dropWhile, isspace_false_of_isdigit c h.1]

/-- For a decimal literal whose value fits a 32-bit `int`, `atoi` returns that
value. -/
theorem atoi_of_literal (text : List Char) (n : Int) (hlit : spec_literal text = some n)
    (hrange : INT_MIN ≤ n ∧ n ≤ INT_MAX) : atoi text = n := by
  have hclamp : ∀ v : Int, INT_MIN ≤ v ∧ v ≤ INT_MAX →
      wrap32 (max (-9223372036854775808) (min 9223372036854775807 v)) = v := by
    intro v hv
    have hv2 := hv
    unfold INT_MIN INT_MAX at hv2
    rw [min_eq_right (by omega), max_eq_right (by omega)]
    exact wrap32_of_range v hv
  unfold spec_literal at hlit
  split at hlit
  · rename_i digits
    split_ifs at hlit with hd
    cases hlit
    have hb : ('-' :: digits).dropWhile isspace = '-' :: digits := by
      rw [List.dropWhile_cons_of_neg (by decide)]
    unfold atoi strtol
    simp only [hb, digitsValue_all_digits digits hd.2 0]
    exact hclamp _ hrange
  · rename_i digits
    split_ifs at hlit with hd
    cases hlit
    have hb : ('+' :: digits).dropWhile isspace = '+' :: digits := by
      rw [List.dropWhile_cons_of_neg (by decide)]
    unfold atoi strtol
    simp only [hb, digitsValue_all_digits digits hd.2 0]
    exact hclamp _ hrange
  · rename_i hminus hplus
    split_ifs at hlit with hd
    cases hlit
    have hb : text.dropWhile isspace = text := strtol_digits text hd.1 hd.2
    unfold atoi strtol
    simp only [hb]
    rw [digitsValue_all_digits text hd.2 0]
    exact hclamp _ hrange

/-- The maximal digit run of a run of digits followed by `!` is the run itself. -/
theorem takeWhile_digits_bang (digits : List Char) (h : digits.all isdigit = true) :
    (digits ++ ['!']).takeWhile isdigit = digits
      ∧ (digits ++ ['!']).dropWhile isdigit = ['!'] := by
  induction digits with
  | nil => exact ⟨by decide, by decide⟩
  | cons c cs ih =>
    simp only [List.all_cons, Bool.and_eq_true] at h
    simp only [List.cons_append, List.takeWhile_cons, List.dropWhile_cons, h.1, if_true]
    exact ⟨by rw [(ih h.2).1], (ih h.2).2⟩

/-- A digit is not a letter. -/
theorem isalpha_false_of_isdigit (c : Char) (h : isdigit c = true) : isalpha c = false := by
  simp only [isdigit, decide_eq_true_eq] at h
  simp only [isalpha, decide_eq_false_iff_not]
  omega

/-- A digit is none of the characters the tokenizer treats specially before the
number rule. -/
theorem digit_facts (c : Char) (h : isdigit c = true) :
    isalpha c = false ∧ c ≠ ' ' ∧ c ≠ '\t' ∧ c ≠ Char.ofNat 0 ∧ c ≠ '-' ∧ c ≠ '+' := by
  refine ⟨isalpha_false_of_isdigit c h, ?_, ?_, ?_, ?_, ?_⟩ <;>
  · rintro rfl
    revert h
    decide

/-- The tokenizer on the final `!` of a line. -/
theorem tokenize_loop_bang (fuel : Nat) (tokens : List Token) :
    tokenize_loop (fuel + 2) ['!'] tokens = Run.ret (some (tokens ++ [op "!"])) := rfl

/-- One round of the tokenizer on a blank and an unsigned digit run before `!`. -/
theorem tokenize_loop_unsigned (fuel : Nat) (d : Char) (ds : List Char) (tokens : List Token)
    (h : (d :: ds).all isdigit = true) :
    tokenize_loop (fuel + 1) (' ' :: (d :: ds) ++ ['!']) tokens
      = tokenize_loop fuel ['!'] (tokens ++ [⟨TOKEN_NUMBER, d :: ds⟩]) := by
  have hd : isdigit d = true := by
    simp only [List.all_cons, Bool.and_eq_true] at h
    exact h.1
  obtain ⟨ha, h1, h2, h3, h4, h5⟩ := digit_facts d hd
  have hsign : (d == '-' || d == '+') = false := by simp [h4, h5]
  have hskip : skip_whitespace (' ' :: (d :: ds) ++ ['!']) = d :: (ds ++ ['!']) := by
    unfold skip_whitespace
    rw [List.cons_append, List.dropWhile_cons_of_pos (by decide), List.cons_append,
      List.dropWhile_cons_of_neg (by simp [h1, h2])]
  have htd := takeWhile_digits_bang (d :: ds) h
  simp only [List.cons_append] at htd
  rw [tokenize_loop, hskip]
  simp only [h3, ha, hd, hsign, if_false, Bool.true_or, if_true, htd.1, htd.2,
    Bool.false_eq_true]

/-- One round of the tokenizer on a blank and a signed digit run before `!`. -/
theorem tokenize_loop_signed (fuel : Nat) (c d : Char) (ds : List Char) (tokens : List Token)
    (hc : c = '-' ∨ c = '+') (h : (d :: ds).all isdigit = true) :
    tokenize_loop (fuel + 1) (' ' :: (c :: d :: ds) ++ ['!']) tokens
      = tokenize_loop fuel ['!'] (tokens ++ [⟨TOKEN_NUMBER, c :: d :: ds⟩]) := by
  have hd : isdigit d = true := by
    simp only [List.all_cons, Bool.and_eq_true] at h
    exact h.1
  have htd := takeWhile_digits_bang (d :: ds) h
  simp only [List.cons_append] at htd
  have hskip : skip_whitespace (' ' :: (c :: d :: ds) ++ ['!']) = c :: d :: (ds ++ ['!']) := by
    unfold skip_whitespace
    rw [List.cons_append, List.dropWhile_cons_of_pos (by decide), List.cons_append,
      List.dropWhile_cons_of_neg (by rcases hc with rfl | rfl <;> decide)]
    rfl
  have hnul : c ≠ Char.ofNat 0 := by rcases hc with rfl | rfl <;> decide
  have halpha : isalpha c = false := by rcases hc with rfl | rfl <;> decide
  have hdig : isdigit c = false := by rcases hc with rfl | rfl <;> decide
  have hsign : (c == '-' || c == '+') = true := by rcases hc with rfl | rfl <;> decide
  have hpeek : peek (d :: (ds ++ ['!'])) = d := rfl
  rw [tokenize_loop, hskip]
  simp only [hnul, halpha, hdig, hsign, hpeek, hd, if_false, Bool.false_or, Bool.and_self,
    if_true, htd.1, htd.2, Bool.false_eq_true]

/-- The tokenizer loop on `PRINT <literal>!` with at least four rounds of fuel. -/
theorem tokenize_loop_print_factorial (text : List Char) (n : Int)
    (hlit : spec_literal text = some n) (fuel : Nat) :
    tokenize_loop (fuel + 4) ("PRINT ".toList ++ text ++ "!".toList) []
      = Run.ret (some [kw "PRINT", ⟨TOKEN_NUMBER, text⟩, op "!"]) := by
  have hstart : ∀ rest : List Char,
      tokenize_loop (fuel + 4) ("PRINT ".toList ++ rest) []
        = tokenize_loop (fuel + 3) (' ' :: rest) [kw "PRINT"] := by
    intro rest
    rfl
  rw [List.append_assoc, hstart]
  unfold spec_literal at hlit
  split at hlit
  · rename_i digits
    split_ifs at hlit with hd
    obtain ⟨d, ds, rfl⟩ := List.exists_cons_of_ne_nil hd.1
    exact (tokenize_loop_signed (fuel + 2) '-' d ds [kw "PRINT"] (Or.inl rfl) hd.2).trans
      (tokenize_loop_bang fuel _)
  · rename_i digits
    split_ifs at hlit with hd
    obtain ⟨d, ds, rfl⟩ := List.exists_cons_of_ne_nil hd.1
    exact (tokenize_loop_signed (fuel + 2) '+' d ds [kw "PRINT"] (Or.inr rfl) hd.2).trans
      (tokenize_loop_bang fuel _)
  · split_ifs at hlit with hd
    obtain ⟨d, ds, rfl⟩ := List.exists_cons_of_ne_nil hd.1
    exact (tokenize_loop_unsigned (fuel + 2) d ds [kw "PRINT"] hd.2).trans
      (tokenize_loop_bang fuel _)

/-- The line `PRINT <literal>!` is tokenised as PRINT, Number, `!`. -/
theorem tokenize_print_factorial (text : List Char) (n : Int)
    (hlit : spec_literal text = some n) :
    basic_tokenize ("PRINT ".toList ++ text ++ "!".toList)
      = Run.ret (some [kw "PRINT", ⟨TOKEN_NUMBER, text⟩, op "!"]) := by
  have hfuel : ("PRINT ".toList ++ text ++ "!".toList).length + 1 = text.length + 4 + 4 := by
    simp only [List.length_append]
    have h1 : "PRINT ".toList.length = 6 := by decide
    have h2 : "!".toList.length = 1 := by decide
    omega
  unfold basic_tokenize
  rw [hfuel]
  exact tokenize_loop_print_factorial text n hlit (text.length + 4)

/-- The evaluator on a Number followed by `!`, in terms of
`calculate_factorial`. -/
theorem evaluate_factorial_tokens (vars : Store) (text : List Char) (err : BasicError) :
    evaluate_expression vars [⟨TOKEN_NUMBER, text⟩, op "!"] err
      = if (calculate_factorial (atoi text) err).2 ≠ ERROR_NONE then
          Run.ret ⟨0, [⟨TOKEN_NUMBER, text⟩, op "!"], (calculate_factorial (atoi text) err).2⟩
        else
          Run.ret ⟨atoi (showInt (calculate_factorial (atoi text) err).1),
            [⟨TOKEN_NUMBER, showInt (calculate_factorial (atoi text) err).1⟩, op "!"],
            ERROR_NONE⟩ := rfl

/-- The dispatcher on PRINT, Number, `!`, in terms of `calculate_factorial`. -/
theorem print_factorial_tokens (vars : Store) (text : List Char) (err : BasicError) :
    basic_parse vars [kw "PRINT", ⟨TOKEN_NUMBER, text⟩, op "!"] err
      = if (calculate_factorial (atoi text) err).2 ≠ ERROR_NONE then
          Run.ret ⟨1, (calculate_factorial (atoi text) err).2, [], vars,
            [kw "PRINT", ⟨TOKEN_NUMBER, text⟩, op "!"]⟩
        else
          Run.ret ⟨1, ERROR_NONE,
            showInt (atoi (showInt (calculate_factorial (atoi text) err).1)) ++ ['\n'], vars,
            [kw "PRINT", ⟨TOKEN_NUMBER, showInt (calculate_factorial (atoi text) err).1⟩,
              op "!"]⟩ := by
  have h : basic_parse vars [kw "PRINT", ⟨TOKEN_NUMBER, text⟩, op "!"] err
      = match evaluate_expression vars [⟨TOKEN_NUMBER, text⟩, op "!"] err with
        | Run.ret r =>
          Run.ret ⟨1, r.error,
            if r.error = ERROR_NONE then showInt r.value ++ ['\n'] else [],
            vars, [kw "PRINT"] ++ r.tokens⟩
        | Run.fault => Run.fault
        | Run.starved => Run.starved := rfl
  rw [h, evaluate_factorial_tokens]
  by_cases hc : (calculate_factorial (atoi text) err).2 ≠ ERROR_NONE
  · simp only [if_pos hc]
    simp [hc]
  · simp only [if_neg hc]
    simp

/-- Up to 12 the factorial loop computes the mathematical factorial, and the
text written for it reads back as the same number. -/
theorem factorial_loop_small (k : Nat) (hk : k ≤ 12) :
    factorial_loop k 1 = (k.factorial : Int)
      ∧ atoi (showInt (k.factorial : Int)) = (k.factorial : Int) := by
  interval_cases k <;> exact ⟨by decide, by decide⟩

/-- C3 (counterexample): the literal 4294967296 is greater than 12, yet
`PRINT 4294967296!` finishes with `ERROR_NONE` and prints 1: `atoi` brings
the literal into the range of `int`, where it is 0. -/
theorem print_factorial_of_large_literal :
    basic_tokenize "PRINT 4294967296!".toList
        = Run.ret (some [kw "PRINT", num "4294967296", op "!"])
      ∧ spec_literal "4294967296".toList = some 4294967296
      ∧ errorOf (basic_parse basic_init [kw "PRINT", num "4294967296", op "!"] ERROR_NONE)
        = some ERROR_NONE
      ∧ printed (basic_parse basic_init [kw "PRINT", num "4294967296", op "!"] ERROR_NONE)
        = some "1\n".toList := by
  decide

/-- C3 (amended): for every decimal literal whose value `n` fits a 32-bit
`int`, the line `PRINT n!` is tokenised as PRINT, Number, `!`; executed with
the error initially `ERROR_NONE` it prints exactly the mathematical `n!` when
`0 ≤ n ≤ 12`; and when `n < 0` or `n > 12` it fails with
`ERROR_INVALID_EXPRESSION`, prints nothing and leaves the store unchanged
(for every entry value of the error). -/
theorem factorial_line (text : List Char) (n : Int) (hlit : spec_literal text = some n)
    (hrange : INT_MIN ≤ n ∧ n ≤ INT_MAX) (vars : Store) :
    basic_tokenize ("PRINT ".toList ++ text ++ "!".toList)
        = Run.ret (some [kw "PRINT", ⟨TOKEN_NUMBER, text⟩, op "!"])
      ∧ (0 ≤ n ∧ n ≤ 12 →
          basic_parse vars [kw "PRINT", ⟨TOKEN_NUMBER, text⟩, op "!"] ERROR_NONE
            = Run.ret ⟨1, ERROR_NONE, showInt (n.toNat.factorial : Int) ++ ['\n'], vars,
                [kw "PRINT", ⟨TOKEN_NUMBER, showInt (n.toNat.factorial : Int)⟩, op "!"]⟩)
      ∧ (n < 0 ∨ 12 < n → ∀ err : BasicError,
          basic_parse vars [kw "PRINT", ⟨TOKEN_NUMBER, text⟩, op "!"] err
            = Run.ret ⟨1, ERROR_INVALID_EXPRESSION, [], vars,
                [kw "PRINT", ⟨TOKEN_NUMBER, text⟩, op "!"]⟩) := by
  have hatoi : atoi text = n := atoi_of_literal text n hlit hrange
  refine ⟨tokenize_print_factorial text n hlit, ?_, ?_⟩
  · rintro ⟨h0, h12⟩
    obtain ⟨k, rfl⟩ := Int.eq_ofNat_of_zero_le h0
    have hk : k ≤ 12 := by omega
    obtain ⟨hf, hr⟩ := factorial_loop_small k hk
    have hc : calculate_factorial (k : Int) ERROR_NONE = ((k.factorial : Int), ERROR_NONE) := by
      unfold calculate_factorial
      rw [if_neg (by omega), if_neg (by omega), Int.toNat_ofNat, hf]
    rw [print_factorial_tokens, hatoi, hc]
    simp only [ne_eq, not_true_eq_false, if_false, hr, Int.toNat_ofNat]
  · intro hbad err
    have hc : calculate_factorial n err = (0, ERROR_INVALID_EXPRESSION) := by
      unfold calculate_factorial
      rcases hbad with h | h
      · rw [if_pos h]
      · rw [if_neg (by omega), if_pos (by omega)]
    rw [print_factorial_tokens, hatoi, hc]
    simp

/-- C3 (witness): `PRINT 5!` prints 120, `PRINT 12!` prints 479001600, and
`PRINT 13!` and `PRINT -1!` fail with `ERROR_INVALID_EXPRESSION`. -/
theorem factorial_line_witness :
    (spec_literal "5".toList = some 5 ∧ INT_MIN ≤ 5 ∧ (5 : Int) ≤ INT_MAX)
      ∧ basic_tokenize "PRINT 5!".toList = Run.ret (some [kw "PRINT", num "5", op "!"])
      ∧ basic_parse basic_init [kw "PRINT", num "5", op "!"] ERROR_NONE
        = Run.ret ⟨1, ERROR_NONE, "120\n".toList, basic_init,
            [kw "PRINT", num "120", op "!"]⟩
      ∧ basic_parse basic_init [kw "PRINT", num "12", op "!"] ERROR_NONE
        = Run.ret ⟨1, ERROR_NONE, "479001600\n".toList, basic_init,
            [kw "PRINT", num "479001600", op "!"]⟩
      ∧ basic_tokenize "PRINT 13!".toList = Run.ret (some [kw "PRINT", num "13", op "!"])
      ∧ basic_parse basic_init [kw "PRINT", num "13", op "!"] ERROR_NONE
        = Run.ret ⟨1, ERROR_INVALID_EXPRESSION, [], basic_init,
            [kw "PRINT", num "13", op "!"]⟩
      ∧ basic_tokenize "PRINT -1!".toList = Run.ret (some [kw "PRINT", num "-1", op "!"])
      ∧ basic_parse basic_init [kw "PRINT", num "-1", op "!"] ERROR_NONE
        = Run.ret ⟨1, ERROR_INVALID_EXPRESSION, [], basic_init,
            [kw "PRINT", num "-1", op "!"]⟩ :=
  ⟨⟨by decide, by decide, by decide⟩,
    (factorial_line "5".toList 5 (by decide) (by decide) basic_init).1,
    (factorial_line "5".toList 5 (by decide) (by decide) basic_init).2.1 (by decide),
    (factorial_line "12".toList 12 (by decide) (by decide) basic_init).2.1 (by decide),
    (factorial_line "13".toList 13 (by decide) (by decide) basic_init).1,
    (factorial_line "13".toList 13 (by decide) (by decide) basic_init).2.2 (by decide)
      ERROR_NONE,
    (factorial_line "-1".toList (-1) (by decide) (by decide) basic_init).1,
    (factorial_line "-1".toList (-1) (by decide) (by decide) basic_init).2.2 (by decide)
      ERROR_NONE⟩

/-! ## A trailing operator -/

/-- Appending tokens does not change the tokens read at the positions of the
first sequence. -/
theorem tokAt_append_left (xs ys : List Token) (j : Nat) (hj : j < xs.length) :
    tokAt (xs ++ ys) j = tokAt xs j := by
  simp [tokAt, List.getD_eq_getElem?_getD, List.getElem?_append_left hj]

/-- The token read just after a sequence is the first appended one. -/
theorem tokAt_append_length (xs : List Token) (o : Token) :
    tokAt (xs ++ [o]) xs.length = o := by
  simp [tokAt, List.getD_eq_getElem?_getD]

/-- A token read at a position inside the buffer is a member of the buffer. -/
theorem tokAt_mem (xs : List Token) (j : Nat) (hj : j < xs.length) : tokAt xs j ∈ xs := by
  simp [tokAt, List.getD_eq_getElem?_getD, List.getElem?_eq_getElem hj]

/-- The fold depends on the buffer only through the tokens at the positions it
visits. -/
theorem fold_loop_congr (vars : Store) (xs ys : List Token) :
    ∀ (n i : Nat) (result : Int) (operation : OperatorType),
      (∀ j, i ≤ j → j < i + n → tokAt xs j = tokAt ys j) →
      fold_loop vars xs n i result operation = fold_loop vars ys n i result operation := by
  intro n
  induction n with
  | zero => intro i result operation _; rfl
  | succ n ih =>
    intro i result operation h
    have h0 : tokAt xs i = tokAt ys i := h i (le_refl i) (by omega)
    have hrec : ∀ r o, fold_loop vars xs n (i + 1) r o = fold_loop vars ys n (i + 1) r o :=
      fun r o => ih (i + 1) r o (fun j hj1 hj2 => h j (by omega) (by omega))
    simp only [fold_loop, h0, hrec]

/-- One more round of the fold on an Operator token changes nothing: the
operator becomes the pending operation and the loop ends. -/
theorem fold_loop_trailing_operator (vars : Store) (xs : List Token) :
    ∀ (n i : Nat) (result : Int) (operation : OperatorType),
      (tokAt xs (i + n)).type = TOKEN_OPERATOR →
      fold_loop vars xs (n + 1) i result operation = fold_loop vars xs n i result operation := by
  intro n
  induction n with
  | zero =>
    intro i result operation h
    simp at h
    simp [fold_loop, h]
  | succ n ih =>
    intro i result operation h
    have hrec : ∀ r o, fold_loop vars xs (n + 1) (i + 1) r o = fold_loop vars xs n (i + 1) r o :=
      fun r o => ih (i + 1) r o (by rw [← h]; congr 2; omega)
    rw [fold_loop]
    conv_rhs => rw [fold_loop]
    simp only [hrec]

/-- The balance loop leaves the depth alone on a sequence without parentheses. -/
theorem balance_loop_no_paren (tokens : List Token) :
    ∀ d : Int, (∀ t ∈ tokens, t.type ≠ TOKEN_PAREN_OPEN ∧ t.type ≠ TOKEN_PAREN_CLOSE) →
      balance_loop tokens d = some d := by
  induction tokens with
  | nil => intro d _; rfl
  | cons t rest ih =>
    intro d h
    have ht := h t (List.mem_cons_self t rest)
    simp only [balance_loop, if_neg ht.1, if_neg ht.2]
    exact ih d (fun u hu => h u (List.mem_cons_of_mem t hu))

/-- On a flat span the first loop of `evaluate_subexpression` reduces nothing,
and with more fuel than positions left the call returns what the fold of the
span returns. -/
theorem reduce_loop_flat (vars : Store) (tokens : List Token) (start last : Nat)
    (error : BasicError) :
    ∀ (n fuel i : Nat), last + 1 - i ≤ n → n < fuel →
      (∀ j, i ≤ j → j ≤ last → (tokAt tokens j).type ≠ TOKEN_PAREN_OPEN
        ∧ ¬ ((tokAt tokens j).type = TOKEN_OPERATOR
            ∧ get_operator_type (tokAt tokens j).value = OP_FACTORIAL)) →
      outcome (reduce_loop vars fuel tokens start i last error)
        = evaluate_flat vars tokens start last := by
  intro n
  induction n with
  | zero =>
    intro fuel i hn hfuel _
    obtain ⟨f, rfl⟩ : ∃ f, fuel = f + 1 := ⟨fuel - 1, by omega⟩
    have hi : i > last := by omega
    rw [reduce_loop, if_pos hi]
    cases evaluate_flat vars tokens start last with
    | ret a => rfl
    | fault => rfl
    | starved => rfl
  | succ n ih =>
    intro fuel i hn hfuel hflat
    obtain ⟨f, rfl⟩ : ∃ f, fuel = f + 1 := ⟨fuel - 1, by omega⟩
    by_cases hi : i > last
    · rw [reduce_loop, if_pos hi]
      cases evaluate_flat vars tokens start last with
      | ret a => rfl
      | fault => rfl
      | starved => rfl
    · have h1 := (hflat i (le_refl i) (by omega)).1
      have hfact : ¬ ((tokAt tokens i).type = TOKEN_NUMBER ∧ i + 1 ≤ last
          ∧ (tokAt tokens (i + 1)).type = TOKEN_OPERATOR
          ∧ get_operator_type (tokAt tokens (i + 1)).value = OP_FACTORIAL) := by
        rintro ⟨_, hle, hop, hf⟩
        exact (hflat (i + 1) (by omega) hle).2 ⟨hop, hf⟩
      rw [reduce_loop, if_neg hi, if_neg h1, if_neg hfact]
      exact ih f (i + 1) (by omega) (by omega) (fun j hj1 hj2 => hflat j (by omega) hj2)

/-- On a non-empty flat sequence `evaluate_expression` returns what the fold of
the whole sequence returns. -/
theorem evaluate_expression_flat (vars : Store) (tokens : List Token) (err : BasicError)
    (hne : tokens ≠ []) (hflat : spec_flat tokens) :
    outcome (evaluate_expression vars tokens err)
      = evaluate_flat vars tokens 0 (tokens.length - 1) := by
  have hlen : tokens.length ≠ 0 := fun h0 => hne (List.length_eq_zero.mp h0)
  have hbal : balance_loop tokens 0 = some 0 :=
    balance_loop_no_paren tokens 0 (fun t ht => ⟨(hflat t ht).1, (hflat t ht).2.1⟩)
  unfold evaluate_expression
  rw [if_neg hlen, hbal]
  simp only [ne_eq, not_true_eq_false, if_false]
  unfold evaluate_subexpression eval_fuel
  apply reduce_loop_flat vars tokens 0 (tokens.length - 1) err (tokens.length - 1 + 1 - 0)
  · exact le_refl _
  · have : tokens.length - 1 + 1 - 0 ≤ (tokens.length - 1 + 1 - 0) * (tokens.length - 1 + 1 - 0) :=
      Nat.le_mul_self _
    omega
  · intro j _ hj
    have hm := tokAt_mem tokens j (by omega)
    exact ⟨(hflat _ hm).1, (hflat _ hm).2.2⟩

/-- The fold of a non-empty sequence followed by one Operator token is the fold
of the sequence. -/
theorem evaluate_flat_trailing_operator (vars : Store) (expr : List Token) (o : Token)
    (hne : expr ≠ []) (ho : o.type = TOKEN_OPERATOR) :
    evaluate_flat vars (expr ++ [o]) 0 ((expr ++ [o]).length - 1)
      = evaluate_flat vars expr 0 (expr.length - 1) := by
  have hlen : 0 < expr.length := List.length_pos.mpr hne
  have h0 : tokAt (expr ++ [o]) 0 = tokAt expr 0 := tokAt_append_left expr [o] 0 hlen
  have hfold : ∀ r, fold_loop vars (expr ++ [o]) (expr.length - 1 + 1) 1 r OP_PLUS
      = fold_loop vars expr (expr.length - 1) 1 r OP_PLUS := by
    intro r
    rw [fold_loop_trailing_operator vars (expr ++ [o]) (expr.length - 1) 1 r OP_PLUS
      (by rw [show 1 + (expr.length - 1) = expr.length by omega, tokAt_append_length]; exact ho)]
    exact fold_loop_congr vars (expr ++ [o]) expr (expr.length - 1) 1 r OP_PLUS
      (fun j _ hj2 => tokAt_append_left expr [o] j (by omega))
  have e1 : (expr ++ [o]).length - 1 - 0 = expr.length - 1 + 1 := by
    simp only [List.length_append, List.length_singleton]; omega
  have e2 : expr.length - 1 - 0 = expr.length - 1 := by omega
  unfold evaluate_flat
  rw [h0, e1, e2]
  simp only [hfold]
  simp

/-- C10 (counterexample): the flat expression `1 +` ends in an Operator, yet
`PRINT 1 +` finishes with `ERROR_NONE` and prints 1. -/
theorem print_trailing_operator_accepted :
    basic_tokenize "PRINT 1 +".toList = Run.ret (some [kw "PRINT", num "1", op "+"])
      ∧ errorOf (basic_parse basic_init [kw "PRINT", num "1", op "+"] ERROR_NONE)
        = some ERROR_NONE
      ∧ printed (basic_parse basic_init [kw "PRINT", num "1", op "+"] ERROR_NONE)
        = some "1\n".toList := by
  decide

/-- What `PRINT <expr>` prints and the error it finishes with are determined by
the value and error of the expression. -/
theorem print_observed (vars : Store) (expr : List Token) (err : BasicError)
    (hne : expr ≠ []) :
    printed (basic_parse vars (kw "PRINT" :: expr) err)
        = (match outcome (evaluate_expression vars expr err) with
          | Run.ret (v, e) => some (if e = ERROR_NONE then showInt v ++ ['\n'] else [])
          | _ => none)
      ∧ errorOf (basic_parse vars (kw "PRINT" :: expr) err)
        = (match outcome (evaluate_expression vars expr err) with
          | Run.ret (_, e) => some e
          | _ => none) := by
  obtain ⟨t, rest, rfl⟩ := List.exists_cons_of_ne_nil hne
  have hlen : ¬ (rest.length + 1 + 1 < 2) := by omega
  simp only [basic_parse, tokAt, kw, List.length_cons, List.drop_succ_cons, List.drop_zero,
    hlen, if_false]
  cases h : evaluate_expression vars (t :: rest) err <;> simp [outcome, printed, errorOf]

/-- C10 (amended): a stray trailing operator is ignored.  For every flat
expression `expr` and every Operator token `o` other than `!`, the expression
`expr o` evaluates to the same value and error kind as `expr` alone (and so
does a fault), and when `expr` is not empty `PRINT expr o` prints what
`PRINT expr` prints and finishes with the same error kind. -/
theorem trailing_operator_ignored (expr : List Token) (o : Token) (hflat : spec_flat expr)
    (ho : o.type = TOKEN_OPERATOR) (hof : get_operator_type o.value ≠ OP_FACTORIAL)
    (vars : Store) (err : BasicError) :
    outcome (evaluate_expression vars (expr ++ [o]) err)
        = outcome (evaluate_expression vars expr err)
      ∧ (expr ≠ [] →
          printed (basic_parse vars (kw "PRINT" :: (expr ++ [o])) err)
              = printed (basic_parse vars (kw "PRINT" :: expr) err)
            ∧ errorOf (basic_parse vars (kw "PRINT" :: (expr ++ [o])) err)
              = errorOf (basic_parse vars (kw "PRINT" :: expr) err)) := by
  have hflat2 : spec_flat (expr ++ [o]) := by
    intro t ht
    rcases List.mem_append.mp ht with h | h
    · exact hflat t h
    · rw [List.mem_singleton.mp h]
      refine ⟨by rw [ho]; decide, by rw [ho]; decide, fun h2 => hof h2.2⟩
  have hmain : outcome (evaluate_expression vars (expr ++ [o]) err)
      = outcome (evaluate_expression vars expr err) := by
    by_cases hne : expr = []
    · subst hne
      obtain ⟨ty, text⟩ := o
      simp only at ho
      subst ho
      rfl
    · rw [evaluate_expression_flat vars (expr ++ [o]) err (by simp) hflat2,
        evaluate_expression_flat vars expr err hne hflat,
        evaluate_flat_trailing_operator vars expr o hne ho]
  refine ⟨hmain, fun hne => ?_⟩
  obtain ⟨p1, e1⟩ := print_observed vars (expr ++ [o]) err (by simp)
  obtain ⟨p2, e2⟩ := print_observed vars expr err hne
  rw [p1, p2, e1, e2, hmain]
  exact ⟨rfl, rfl⟩

/-- C10 (witness): `PRINT 1 +` prints what `PRINT 1` prints, which is 1, and
`PRINT 2 * 3 -` prints what `PRINT 2 * 3` prints, which is 6. -/
theorem trailing_operator_ignored_witness :
    (spec_flat [num "1"] ∧ (op "+").type = TOKEN_OPERATOR
        ∧ get_operator_type (op "+").value ≠ OP_FACTORIAL)
      ∧ basic_tokenize "PRINT 2 * 3 -".toList
        = Run.ret (some [kw "PRINT", num "2", op "*", num "3", op "-"])
      ∧ outcome (evaluate_expression basic_init ([num "1"] ++ [op "+"]) ERROR_NONE)
        = outcome (evaluate_expression basic_init [num "1"] ERROR_NONE)
      ∧ printed (basic_parse basic_init (kw "PRINT" :: ([num "1"] ++ [op "+"])) ERROR_NONE)
        = printed (basic_parse basic_init (kw "PRINT" :: [num "1"]) ERROR_NONE)
      ∧ printed (basic_parse basic_init (kw "PRINT" :: [num "1"]) ERROR_NONE)
        = some "1\n".toList
      ∧ printed (basic_parse basic_init
          (kw "PRINT" :: ([num "2", op "*", num "3"] ++ [op "-"])) ERROR_NONE)
        = printed (basic_parse basic_init (kw "PRINT" :: [num "2", op "*", num "3"])
            ERROR_NONE)
      ∧ printed (basic_parse basic_init (kw "PRINT" :: [num "2", op "*", num "3"])
          ERROR_NONE) = some "6\n".toList :=
  ⟨⟨by unfold spec_flat; decide, rfl, by decide⟩, by decide,
    (trailing_operator_ignored [num "1"] (op "+") (by unfold spec_flat; decide) rfl
      (by decide) basic_init ERROR_NONE).1,
    ((trailing_operator_ignored [num "1"] (op "+") (by unfold spec_flat; decide) rfl
      (by decide) basic_init ERROR_NONE).2 (by decide)).1,
    by decide,
    ((trailing_operator_ignored [num "2", op "*", num "3"] (op "-")
      (by unfold spec_flat; decide) rfl (by decide) basic_init ERROR_NONE).2 (by decide)).1,
    by decide⟩

/-! ## EXIT -/

/-- C12: for every token sequence whose first token is the keyword `EXIT`,
whatever tokens follow it and whatever the store and the entry value of the
error are, `basic_parse` returns -1 with `ERROR_NONE`, prints nothing and
leaves the store and the tokens as they were. -/
theorem exit_always_signals (rest : List Token) (vars : Store) (err : BasicError) :
    basic_parse vars (kw "EXIT" :: rest) err
      = Run.ret ⟨-1, ERROR_NONE, [], vars, kw "EXIT" :: rest⟩ := by
  simp [basic_parse, tokAt, kw]

/-! ## Sign folding in the lexer -/

/-- C17 (counterexample): the text `3 - -2` is tokenised into three tokens,
Number `3`, Operator `-` and Number `-2`, and evaluating them gives 5. -/
theorem three_minus_minus_two_has_three_tokens :
    basic_tokenize "3 - -2".toList = Run.ret (some [num "3", op "-", num "-2"])
      ∧ basic_tokenize "3 - -2".toList ≠ Run.ret (some [num "3", num "-2"])
      ∧ evaluate_expression basic_init [num "3", op "-", num "-2"] ERROR_NONE
        = Run.ret ⟨5, [num "3", op "-", num "-2"], ERROR_NONE⟩ := by
  decide

/-- C17 (amended): a sign is folded into the number only when a digit follows
it directly.  The text `3 -2` is tokenised into exactly two tokens, Number
`3` and Number `-2`, with no Operator token between them, and evaluating them
combines the two by implicit addition (result 1); the text `3 - -2` is
tokenised into Number `3`, Operator `-`, Number `-2`. -/
theorem sign_folding_in_lexer (vars : Store) (err : BasicError) :
    basic_tokenize "3 -2".toList = Run.ret (some [num "3", num "-2"])
      ∧ evaluate_expression vars [num "3", num "-2"] err
        = Run.ret ⟨1, [num "3", num "-2"], ERROR_NONE⟩
      ∧ basic_tokenize "3 - -2".toList = Run.ret (some [num "3", op "-", num "-2"]) :=
  ⟨by decide, rfl, by decide⟩

/-! ## The entry value of the error -/

/-- C18 (the code departs from the claim): on the tokens of `PRINT 5!` and the
same store, `basic_parse` entered with `ERROR_NONE` prints 120 and finishes
with `ERROR_NONE`, and entered with `ERROR_SYNTAX_ERROR` (the error a previous
line such as `PRINT )` leaves in the variable of the shell) it prints nothing
and finishes with `ERROR_SYNTAX_ERROR`. -/
theorem stale_error_changes_outcome (vars : Store) :
    basic_tokenize "PRINT 5!".toList = Run.ret (some [kw "PRINT", num "5", op "!"])
      ∧ basic_parse vars [kw "PRINT", num "5", op "!"] ERROR_NONE
        = Run.ret ⟨1, ERROR_NONE, "120\n".toList, vars, [kw "PRINT", num "120", op "!"]⟩
      ∧ basic_parse vars [kw "PRINT", num "5", op "!"] ERROR_SYNTAX_ERROR
        = Run.ret ⟨1, ERROR_SYNTAX_ERROR, [], vars, [kw "PRINT", num "5", op "!"]⟩
      ∧ errorOf (basic_parse vars [kw "PRINT", pclose] ERROR_NONE)
        = some ERROR_SYNTAX_ERROR := by
  refine ⟨by decide, ?_, rfl, rfl⟩
  have h : basic_parse vars [kw "PRINT", num "5", op "!"] ERROR_NONE
      = Run.ret ⟨1, ERROR_NONE, showInt 120 ++ ['\n'], vars,
          [kw "PRINT", ⟨TOKEN_NUMBER, showInt 120⟩, op "!"]⟩ := rfl
  rw [h]
  rfl

/-! ## The multiplication guard -/

/-- C14 (counterexample): with `result = -2147483648` and `current = 2` the
exact product -4294967296 lies outside the signed 32-bit range, yet the `*`
step does not fail: it sets `result` to the wrapped value 0, and the line
`PRINT -2147483648 * 2` prints 0. -/
theorem multiply_misses_negative_overflow :
    apply_operation OP_MULTIPLY (-2147483648) 2 = Step.next 0
      ∧ ((-2147483648 : Int) * 2 < INT_MIN)
      ∧ basic_tokenize "PRINT -2147483648 * 2".toList
        = Run.ret (some [kw "PRINT", num "-2147483648", op "*", num "2"])
      ∧ printed (basic_parse basic_init [kw "PRINT", num "-2147483648", op "*", num "2"]
          ERROR_NONE) = some "0\n".toList := by
  decide

/-- C14 (amended): for every `result` and every `current > 0`, the `*` step
fails with `ERROR_INVALID_EXPRESSION` whenever the exact product
`result * current` is greater than `INT_MAX`, and sets `result` to the exact
product (no wrap-around) whenever the product lies in the signed 32-bit
range. -/
theorem multiply_guard_positive (result current : Int) (hc : 0 < current) :
    (INT_MAX < result * current →
        apply_operation OP_MULTIPLY result current = Step.fail ERROR_INVALID_EXPRESSION)
      ∧ (INT_MIN ≤ result * current ∧ result * current ≤ INT_MAX →
        apply_operation OP_MULTIPLY result current = Step.next (result * current)) := by
  have hdiv : Int.tdiv INT_MAX current = INT_MAX / current :=
    Int.tdiv_eq_ediv (by decide) (le_of_lt hc)
  have hiff : result > Int.tdiv INT_MAX current ↔ INT_MAX < result * current := by
    rw [hdiv]
    exact Int.ediv_lt_iff_lt_mul hc
  have hne : current ≠ 0 := ne_of_gt hc
  constructor
  · intro h
    simp only [apply_operation, if_neg hne, if_pos (hiff.mpr h)]
  · intro h
    have hnot : ¬ result > Int.tdiv INT_MAX current := fun hgt => by
      have := hiff.mp hgt
      omega
    simp only [apply_operation, if_neg hne, if_neg hnot]
    rw [wrap32_of_range _ h]

/-- C14 (witness): 3 * 4 is set to 12, and 65536 * 65536 is rejected. -/
theorem multiply_guard_positive_witness :
    ((0 : Int) < 65536 ∧ INT_MAX < (65536 : Int) * 65536)
      ∧ apply_operation OP_MULTIPLY 65536 65536 = Step.fail ERROR_INVALID_EXPRESSION
      ∧ ((0 : Int) < 4 ∧ INT_MIN ≤ (3 : Int) * 4 ∧ (3 : Int) * 4 ≤ INT_MAX)
      ∧ apply_operation OP_MULTIPLY 3 4 = Step.next (3 * 4) :=
  ⟨by decide, (multiply_guard_positive 65536 65536 (by decide)).1 (by decide),
    by decide, (multiply_guard_positive 3 4 (by decide)).2 (by decide)⟩

/-- C15 (the code departs from the claim): the `*` step computes
`INT_MAX / current` for every `current`.  With `current = 0` that is a
division by zero, so `PRINT 2 * 0` faults instead of printing 0; with
`current = -3` the test `2 > INT_MAX / -3` holds, so `PRINT 2 * -3` fails with
`ERROR_INVALID_EXPRESSION` instead of printing -6. -/
theorem multiply_by_nonpositive_guarded (vars : Store) (err : BasicError) :
    basic_tokenize "PRINT 2 * 0".toList = Run.ret (some [kw "PRINT", num "2", op "*", num "0"])
      ∧ apply_operation OP_MULTIPLY 2 0 = Step.trap
      ∧ basic_parse vars [kw "PRINT", num "2", op "*", num "0"] err = Run.fault
      ∧ basic_tokenize "PRINT 2 * -3".toList
        = Run.ret (some [kw "PRINT", num "2", op "*", num "-3"])
      ∧ apply_operation OP_MULTIPLY 2 (-3) = Step.fail ERROR_INVALID_EXPRESSION
      ∧ basic_parse vars [kw "PRINT", num "2", op "*", num "-3"] err
        = Run.ret ⟨1, ERROR_INVALID_EXPRESSION, [], vars,
            [kw "PRINT", num "2", op "*", num "-3"]⟩ :=
  ⟨by decide, by decide, rfl, by decide, by decide, rfl⟩

/-! ## PRINT twice -/

/-- The entry value of the error reaches `evaluate_subexpression` in one way
only: either the run does not depend on it at all, or every entry value other
than `ERROR_NONE` makes the run return 0 at once with that value and the
tokens untouched. -/
theorem reduce_loop_entry_error (vars : Store) :
    ∀ (fuel : Nat) (tokens : List Token) (start i last : Nat),
      (∀ e, reduce_loop vars fuel tokens start i last e
          = reduce_loop vars fuel tokens start i last ERROR_NONE)
        ∨ (∀ e, e ≠ ERROR_NONE →
            reduce_loop vars fuel tokens start i last e = Run.ret ⟨0, tokens, e⟩) := by
  intro fuel
  induction fuel with
  | zero => intro tokens start i last; exact Or.inl (fun e => rfl)
  | succ fuel ih =>
    intro tokens start i last
    by_cases hi : i > last
    · left
      intro e
      simp only [reduce_loop, if_pos hi]
    by_cases hopen : (tokAt tokens i).type = TOKEN_PAREN_OPEN
    · cases hf : find_paren_loop tokens (last + 1 - i) i 1 with
      | none =>
        left
        intro e
        simp only [reduce_loop, if_neg hi, if_pos hopen, find_matching_paren, hf]
      | some c =>
        right
        intro e he
        simp only [reduce_loop, if_neg hi, if_pos hopen, find_matching_paren, hf]
        rw [if_pos he]
    by_cases hfact : (tokAt tokens i).type = TOKEN_NUMBER ∧ i + 1 ≤ last
        ∧ (tokAt tokens (i + 1)).type = TOKEN_OPERATOR
        ∧ get_operator_type (tokAt tokens (i + 1)).value = OP_FACTORIAL
    · by_cases hbad : atoi (tokAt tokens i).value < 0 ∨ atoi (tokAt tokens i).value > 12
      · left
        intro e
        have hc : ∀ e', calculate_factorial (atoi (tokAt tokens i).value) e'
            = (0, ERROR_INVALID_EXPRESSION) := by
          intro e'
          unfold calculate_factorial
          rcases hbad with h | h
          · rw [if_pos h]
          · by_cases h0 : atoi (tokAt tokens i).value < 0
            · rw [if_pos h0]
            · rw [if_neg h0, if_pos h]
        simp only [reduce_loop, if_neg hi, if_neg hopen, if_pos hfact, hc]
      · right
        intro e he
        have hc : calculate_factorial (atoi (tokAt tokens i).value) e
            = (factorial_loop (atoi (tokAt tokens i).value).toNat 1, e) := by
          unfold calculate_factorial
          rw [if_neg (fun h => hbad (Or.inl h)), if_neg (fun h => hbad (Or.inr h))]
        simp only [reduce_loop, if_neg hi, if_neg hopen, if_pos hfact, hc]
        rw [if_pos he]
    · rcases ih tokens start (i + 1) last with h | h
      · left
        intro e
        simp only [reduce_loop, if_neg hi, if_neg hopen, if_neg hfact]
        exact h e
      · right
        intro e he
        simp only [reduce_loop, if_neg hi, if_neg hopen, if_neg hfact]
        exact h e he

/-- The same alternative for `evaluate_expression`. -/
theorem evaluate_expression_entry_error (vars : Store) (tokens : List Token) :
    (∀ e, evaluate_expression vars tokens e = evaluate_expression vars tokens ERROR_NONE)
      ∨ (∀ e, e ≠ ERROR_NONE →
          evaluate_expression vars tokens e = Run.ret ⟨0, tokens, e⟩) := by
  by_cases hlen : tokens.length = 0
  · left
    intro e
    simp only [evaluate_expression, if_pos hlen]
  cases hb : balance_loop tokens 0 with
  | none =>
    left
    intro e
    simp only [evaluate_expression, if_neg hlen, hb]
  | some depth =>
    by_cases hd : depth ≠ 0
    · left
      intro e
      simp only [evaluate_expression, if_neg hlen, hb, if_pos hd]
    · rcases reduce_loop_entry_error vars (eval_fuel (tokens.length - 1 + 1 - 0)) tokens 0 0
        (tokens.length - 1) with h | h
      · left
        intro e
        simp only [evaluate_expression, if_neg hlen, hb, if_neg hd, evaluate_subexpression]
        exact h e
      · right
        intro e he
        simp only [evaluate_expression, if_neg hlen, hb, if_neg hd, evaluate_subexpression]
        exact h e he

/-- The result of `basic_parse` on a PRINT line with an expression, in terms of
the result of `evaluate_expression`. -/
theorem print_unfold (vars : Store) (t : Token) (rest : List Token) (err : BasicError) :
    basic_parse vars (kw "PRINT" :: t :: rest) err
      = match evaluate_expression vars (t :: rest) err with
        | Run.ret r =>
          Run.ret ⟨1, r.error, if r.error = ERROR_NONE then showInt r.value ++ ['\n'] else [],
            vars, kw "PRINT" :: r.tokens⟩
        | Run.fault => Run.fault
        | Run.starved => Run.starved := by
  have hlen : ¬ (rest.length + 1 + 1 < 2) := by omega
  simp only [basic_parse, tokAt, kw, List.length_cons, List.drop_succ_cons, List.drop_zero,
    hlen, if_false]
  cases evaluate_expression vars (t :: rest) err <;> simp

/-- Where the first execution of a PRINT line returns, for every store and
every starting value of the error, it leaves the store unchanged, and
executing the same tokens again (the tokenizer is a function of the line, so
tokenizing the line again gives the same tokens), entered with the error value
the first run left behind, returns with the same output and the same error
kind as the first time, and the same store. -/
theorem print_twice_same (rest : List Token) (vars : Store) (err : BasicError)
    (r1 : ParseResult) (h1 : basic_parse vars (kw "PRINT" :: rest) err = Run.ret r1) :
    r1.vars = vars
      ∧ ∃ r2, basic_parse r1.vars (kw "PRINT" :: rest) r1.error = Run.ret r2
          ∧ r2.output = r1.output ∧ r2.error = r1.error ∧ r2.vars = vars := by
  cases rest with
  | nil =>
    have h0 : ∀ e, basic_parse vars [kw "PRINT"] e
        = Run.ret ⟨0, ERROR_SYNTAX_ERROR, [], vars, [kw "PRINT"]⟩ := fun e => rfl
    rw [h0] at h1
    cases h1
    exact ⟨rfl, _, h0 _, rfl, rfl, rfl⟩
  | cons t rest =>
    rw [print_unfold] at h1
    cases hr : evaluate_expression vars (t :: rest) err with
    | fault => rw [hr] at h1; cases h1
    | starved => rw [hr] at h1; cases h1
    | ret r =>
      rw [hr] at h1
      cases h1
      refine ⟨rfl, ?_⟩
      simp only
      have same : evaluate_expression vars (t :: rest) r.error = Run.ret r →
          ∃ r2, basic_parse vars (kw "PRINT" :: t :: rest) r.error = Run.ret r2
            ∧ r2.output = (if r.error = ERROR_NONE then showInt r.value ++ ['\n'] else [])
            ∧ r2.error = r.error ∧ r2.vars = vars := by
        intro h2
        rw [print_unfold, h2]
        exact ⟨_, rfl, rfl, rfl, rfl⟩
      rcases evaluate_expression_entry_error vars (t :: rest) with hA | hB
      · exact same (by rw [hA r.error, ← hA err, hr])
      · by_cases herr : err = ERROR_NONE
        · by_cases he1 : r.error = ERROR_NONE
          · exact same (by rw [he1, ← herr, hr])
          · rw [print_unfold, hB r.error he1]
            exact ⟨_, rfl, by simp [he1], rfl, rfl⟩
        · have hstale := hB err herr
          rw [hr] at hstale
          cases hstale
          exact same hr

/-- Every execution of a PRINT line ends in one of two ways.  Either it dies of
a division fault, or it returns with the store unchanged, and then executing
the same tokens again, entered with the error value the first run left behind,
returns with the same output, the same error kind and the same store. -/
theorem print_twice_same_or_fault (rest : List Token) (vars : Store) (err : BasicError) :
    basic_parse vars (kw "PRINT" :: rest) err = Run.fault
      ∨ ∃ r1, basic_parse vars (kw "PRINT" :: rest) err = Run.ret r1 ∧ r1.vars = vars
          ∧ ∃ r2, basic_parse r1.vars (kw "PRINT" :: rest) r1.error = Run.ret r2
              ∧ r2.output = r1.output ∧ r2.error = r1.error ∧ r2.vars = vars := by
  cases h : basic_parse vars (kw "PRINT" :: rest) err with
  | fault => exact Or.inl rfl
  | starved => exact absurd h (basic_parse_not_starved vars _ err)
  | ret r1 =>
    obtain ⟨hv, hsecond⟩ := print_twice_same rest vars err r1 h
    exact Or.inr ⟨r1, rfl, hv, hsecond⟩

/-- C13 (the code departs from the claim): the first execution of the line
`PRINT 2 * 0` does not return, for every store and every starting error: the
`*` step divides `INT_MAX` by zero.  Nothing is printed, no error kind is
stored and the line is never executed a second time, where the claim has the
store left unchanged and `0` printed both times.  The same happens to
`PRINT 2 * A` on the initial store, where `A` is 0, while on a store with
`A = 3` every execution of that line prints 6 with `ERROR_NONE`. -/
theorem print_twice_dies_on_zero_factor :
    basic_tokenize "PRINT 2 * 0".toList
        = Run.ret (some [kw "PRINT", num "2", op "*", num "0"])
      ∧ (∀ (vars : Store) (err : BasicError),
          basic_parse vars [kw "PRINT", num "2", op "*", num "0"] err = Run.fault
            ∧ printed (basic_parse vars [kw "PRINT", num "2", op "*", num "0"] err) = none
            ∧ errorOf (basic_parse vars [kw "PRINT", num "2", op "*", num "0"] err) = none)
      ∧ basic_tokenize "PRINT 2 * A".toList
        = Run.ret (some [kw "PRINT", num "2", op "*", var 'A'])
      ∧ (∀ err : BasicError,
          basic_parse basic_init [kw "PRINT", num "2", op "*", var 'A'] err = Run.fault)
      ∧ (∀ err : BasicError,
          basic_parse (set_variable_value basic_init 'A' 3)
              [kw "PRINT", num "2", op "*", var 'A'] err
            = Run.ret ⟨1, ERROR_NONE, "6\n".toList, set_variable_value basic_init 'A' 3,
                [kw "PRINT", num "2", op "*", var 'A']⟩) :=
  ⟨by decide, fun _ _ => ⟨rfl, rfl, rfl⟩, by decide, fun _ => rfl, fun _ => rfl⟩

/-! ## Expressions with a parenthesis -/

/-- The token read at a position after one assignment to the buffer. -/
theorem tokAt_set (tokens : List Token) (j k : Nat) (x : Token) :
    tokAt (tokens.set j x) k
      = if k = j ∧ j < tokens.length then x else tokAt tokens k := by
  unfold tokAt
  rw [List.getD_eq_getElem?_getD, List.getD_eq_getElem?_getD, List.getElem?_set]
  by_cases hjk : j = k
  · subst hjk
    by_cases hlt : j < tokens.length
    · simp [hlt]
    · simp [hlt, List.getElem?_eq_none (Nat.le_of_not_lt hlt)]
  · have hkj : ¬ k = j := fun h => hjk h.symm
    simp [hjk, hkj]

/-- A position outside the buffer reads the zero token. -/
theorem tokAt_of_length_le (tokens : List Token) (k : Nat) (h : tokens.length ≤ k) :
    tokAt tokens k = ⟨TOKEN_NONE, []⟩ := by
  unfold tokAt
  rw [List.getD_eq_getElem?_getD, List.getElem?_eq_none h]
  rfl

/-- The tokens read after a compaction loop: the `n` positions from `j` on hold
the tokens that were `shift` positions further, the others are unchanged. -/
theorem tokAt_shift_tokens (shift : Nat) (hs : 1 ≤ shift) :
    ∀ (n j : Nat) (tokens : List Token) (k : Nat),
      tokAt (shift_tokens shift n j tokens) k
        = if j ≤ k ∧ k < j + n then tokAt tokens (k + shift) else tokAt tokens k := by
  intro n
  induction n with
  | zero =>
    intro j tokens k
    have : ¬ (j ≤ k ∧ k < j + 0) := by omega
    simp only [shift_tokens, if_neg this]
  | succ n ih =>
    intro j tokens k
    rw [shift_tokens, ih]
    by_cases h1 : j + 1 ≤ k ∧ k < j + 1 + n
    · have h2 : j ≤ k ∧ k < j + (n + 1) := by omega
      have h3 : ¬ (k + shift = j ∧ j < tokens.length) := by omega
      rw [if_pos h1, if_pos h2, tokAt_set, if_neg h3]
    · rw [if_neg h1, tokAt_set]
      by_cases hk : k = j
      · subst hk
        have h2 : k ≤ k ∧ k < k + (n + 1) := by omega
        rw [if_pos h2]
        by_cases hlt : k < tokens.length
        · rw [if_pos ⟨rfl, hlt⟩]
        · have hn : ¬ (k = k ∧ k < tokens.length) := fun h => hlt h.2
          rw [if_neg hn, tokAt_of_length_le tokens k (by omega),
            tokAt_of_length_le tokens (k + shift) (by omega)]
      · have h2 : ¬ (j ≤ k ∧ k < j + (n + 1)) := by omega
        have h3 : ¬ (k = j ∧ j < tokens.length) := fun h => hk h.1
        rw [if_neg h2, if_neg h3]

/-- The depth after one more token, counted from the front. -/
theorem prefix_depth_front (tokens : List Token) :
    ∀ (k i : Nat), prefix_depth tokens i (k + 1)
      = paren_weight (tokAt tokens i) + prefix_depth tokens (i + 1) k := by
  intro k
  induction k with
  | zero => intro i; simp [prefix_depth]
  | succ k ih =>
    intro i
    rw [prefix_depth, ih, prefix_depth]
    have : i + (k + 1) = i + 1 + k := by omega
    rw [this]
    ring

/-- The depth is additive over adjacent runs of positions. -/
theorem prefix_depth_add (tokens : List Token) (start a : Nat) :
    ∀ b : Nat, prefix_depth tokens start (a + b)
      = prefix_depth tokens start a + prefix_depth tokens (start + a) b := by
  intro b
  induction b with
  | zero => simp [prefix_depth]
  | succ b ih =>
    rw [← Nat.add_assoc, prefix_depth, ih, prefix_depth]
    have : start + (a + b) = start + a + b := by omega
    rw [this]
    ring

/-- A run of positions without parentheses has depth 0. -/
theorem prefix_depth_no_paren (tokens : List Token) (start : Nat) :
    ∀ m : Nat, (∀ q, start ≤ q → q < start + m → paren_weight (tokAt tokens q) = 0) →
      prefix_depth tokens start m = 0 := by
  intro m
  induction m with
  | zero => intro _; rfl
  | succ m ih =>
    intro h
    rw [prefix_depth, ih (fun q h1 h2 => h q h1 (by omega)), h (start + m) (by omega) (by omega)]
    rfl

/-- Started at a depth that stays at 1 or more, the loop of
`find_matching_paren` runs to its end without returning a position. -/
theorem find_paren_loop_none (tokens : List Token) :
    ∀ (n i : Nat) (depth : Int),
      (∀ k, k ≤ n → 1 ≤ depth + prefix_depth tokens i k) →
      find_paren_loop tokens n i depth = none := by
  intro n
  induction n with
  | zero => intro i depth _; rfl
  | succ n ih =>
    intro i depth h
    have hw : ∀ k, k ≤ n →
        1 ≤ depth + paren_weight (tokAt tokens i) + prefix_depth tokens (i + 1) k := by
      intro k hk
      have := h (k + 1) (by omega)
      rw [prefix_depth_front] at this
      omega
    rw [find_paren_loop]
    by_cases ho : (tokAt tokens i).type = TOKEN_PAREN_OPEN
    · rw [if_pos ho]
      apply ih
      intro k hk
      have := hw k hk
      simp only [paren_weight, if_pos ho] at this
      exact this
    · rw [if_neg ho]
      by_cases hc : (tokAt tokens i).type = TOKEN_PAREN_CLOSE
      · rw [if_pos hc]
        have h1 := hw 0 (by omega)
        simp only [paren_weight, if_neg ho, if_pos hc, prefix_depth] at h1
        have hne : ¬ depth - 1 = 0 := by omega
        rw [if_neg hne]
        apply ih
        intro k hk
        have := hw k hk
        simp only [paren_weight, if_neg ho, if_pos hc] at this
        omega
      · rw [if_neg hc]
        apply ih
        intro k hk
        have := hw k hk
        simp only [paren_weight, if_neg ho, if_neg hc] at this
        omega

/-- The tokens read after a factorial reduction at position `i`: the positions
before `i` are unchanged, position `i` holds the new Number, and the
positions after it, up to the new end, hold the tokens that were one further. -/
theorem tokAt_after_factorial (tokens : List Token) (i last : Nat) (x : Token)
    (hnum : (tokAt tokens i).type = TOKEN_NUMBER) :
    (∀ k, k < i → tokAt (shift_tokens 1 (last - 1 - i) (i + 1) (tokens.set i x)) k
        = tokAt tokens k)
      ∧ tokAt (shift_tokens 1 (last - 1 - i) (i + 1) (tokens.set i x)) i = x
      ∧ (∀ k, i < k → k < last →
          tokAt (shift_tokens 1 (last - 1 - i) (i + 1) (tokens.set i x)) k
            = tokAt tokens (k + 1)) := by
  have hlen : i < tokens.length := by
    by_contra hge
    rw [tokAt_of_length_le tokens i (by omega)] at hnum
    cases hnum
  refine ⟨?_, ?_, ?_⟩
  · intro k hk
    have h1 : ¬ (i + 1 ≤ k ∧ k < i + 1 + (last - 1 - i)) := by omega
    have h2 : ¬ (k = i ∧ i < tokens.length) := by omega
    rw [tokAt_shift_tokens 1 (le_refl 1), if_neg h1, tokAt_set, if_neg h2]
  · have h1 : ¬ (i + 1 ≤ i ∧ i < i + 1 + (last - 1 - i)) := by omega
    rw [tokAt_shift_tokens 1 (le_refl 1), if_neg h1, tokAt_set, if_pos ⟨rfl, hlen⟩]
  · intro k hk1 hk2
    have h1 : i + 1 ≤ k ∧ k < i + 1 + (last - 1 - i) := by omega
    have h2 : ¬ (k + 1 = i ∧ i < tokens.length) := by omega
    rw [tokAt_shift_tokens 1 (le_refl 1), if_pos h1, tokAt_set, if_neg h2]

/-- Removing a token without weight at position `i + 1` from a span moves the
depths after it one position to the front and changes none of them. -/
theorem prefix_depth_after_removal (tokens tokens2 : List Token) (start i last : Nat)
    (hsi : start ≤ i)
    (h1 : ∀ k, k ≤ i → paren_weight (tokAt tokens2 k) = paren_weight (tokAt tokens k))
    (h2 : ∀ k, i < k → k < last →
      paren_weight (tokAt tokens2 k) = paren_weight (tokAt tokens (k + 1)))
    (h3 : paren_weight (tokAt tokens (i + 1)) = 0) :
    ∀ m, m ≤ last - start →
      prefix_depth tokens2 start m
        = if start + m ≤ i + 1 then prefix_depth tokens start m
          else prefix_depth tokens start (m + 1) := by
  intro m
  induction m with
  | zero =>
    intro _
    rw [if_pos (by omega)]
    rfl
  | succ m ih =>
    intro hm
    have ihm := ih (by omega)
    have hlt : start + m < last := by omega
    rw [prefix_depth, ihm]
    by_cases hc : start + m ≤ i
    · have c1 : start + m ≤ i + 1 := by omega
      have c2 : start + (m + 1) ≤ i + 1 := by omega
      rw [if_pos c1, if_pos c2, h1 (start + m) hc, prefix_depth]
    · have c2 : ¬ start + (m + 1) ≤ i + 1 := by omega
      rw [if_neg c2, h2 (start + m) (by omega) hlt]
      by_cases hb : start + m ≤ i + 1
      · have he : start + m = i + 1 := by omega
        rw [if_pos hb, prefix_depth, prefix_depth, he, h3]
        have : start + (m + 1) = i + 1 + 1 := by omega
        rw [this]
        ring
      · rw [if_neg hb, prefix_depth]
        rfl

/-- In a span whose depths are never negative, a run of positions from the
start that holds no ParenOpen holds no ParenClose either: its depth is 0. -/
theorem prefix_depth_scanned (tokens : List Token) (start bound : Nat)
    (hdepth : ∀ m, m ≤ bound → 0 ≤ prefix_depth tokens start m) :
    ∀ n, n ≤ bound →
      (∀ q, start ≤ q → q < start + n → (tokAt tokens q).type ≠ TOKEN_PAREN_OPEN) →
      prefix_depth tokens start n = 0 := by
  intro n
  induction n with
  | zero => intro _ _; rfl
  | succ n ih =>
    intro hn hscan
    have h0 := ih (by omega) (fun q hq1 hq2 => hscan q hq1 (by omega))
    have hge := hdepth (n + 1) hn
    rw [prefix_depth, h0] at hge ⊢
    have hno := hscan (start + n) (by omega) (by omega)
    simp only [paren_weight, if_neg hno] at hge ⊢
    split_ifs at hge ⊢ with hc
    · omega
    · rfl

/-- On a span that holds a ParenOpen and whose depths are never negative, the
first loop of `evaluate_subexpression` returns with an error: the scan cannot
pass the first ParenOpen, a factorial reduction before it keeps the
parentheses of the span, and on the ParenOpen `find_matching_paren` counts it
a second time and finds no match. -/
theorem reduce_loop_paren_fails (vars : Store) :
    ∀ (fuel : Nat) (tokens : List Token) (start i last : Nat) (error : BasicError),
      start ≤ i → i ≤ last + 1 →
      (last + 1 - i) + 1 + (last + 1 - start) * (last + 1 - start) ≤ fuel →
      (∀ m, m ≤ last + 1 - start → 0 ≤ prefix_depth tokens start m) →
      (∃ p, start ≤ p ∧ p ≤ last ∧ (tokAt tokens p).type = TOKEN_PAREN_OPEN) →
      (∀ q, start ≤ q → q < i → (tokAt tokens q).type ≠ TOKEN_PAREN_OPEN) →
      ∃ r, reduce_loop vars fuel tokens start i last error = Run.ret r
        ∧ r.error ≠ ERROR_NONE := by
  intro fuel
  induction fuel with
  | zero => intro tokens start i last error _ _ hb; omega
  | succ fuel ih =>
    intro tokens start i last error hsi hil hb hdepth hopen hscan
    rw [reduce_loop]
    by_cases hi : i > last
    · obtain ⟨p, hp1, hp2, hp3⟩ := hopen
      exact absurd hp3 (hscan p hp1 (by omega))
    rw [if_neg hi]
    have hkL : last + 1 - i ≤ last + 1 - start := by omega
    have hsq := Nat.mul_le_mul hkL hkL
    by_cases ho : (tokAt tokens i).type = TOKEN_PAREN_OPEN
    · rw [if_pos ho]
      have hzero : prefix_depth tokens start (i - start) = 0 :=
        prefix_depth_scanned tokens start (last + 1 - start) hdepth (i - start) (by omega)
          (fun q hq1 hq2 => hscan q hq1 (by omega))
      have hnone : find_paren_loop tokens (last + 1 - i) i 1 = none := by
        apply find_paren_loop_none
        intro k hk
        have h1 := hdepth (i - start + k) (by omega)
        rw [prefix_depth_add, hzero] at h1
        have : start + (i - start) = i := by omega
        rw [this] at h1
        omega
      simp only [find_matching_paren, hnone]
      exact ⟨_, rfl, fun h => BasicError.noConfusion h⟩
    rw [if_neg ho]
    by_cases hfact : (tokAt tokens i).type = TOKEN_NUMBER ∧ i + 1 ≤ last
        ∧ (tokAt tokens (i + 1)).type = TOKEN_OPERATOR
        ∧ get_operator_type (tokAt tokens (i + 1)).value = OP_FACTORIAL
    · rw [if_pos hfact]
      dsimp only
      by_cases hcalc : (calculate_factorial (atoi (tokAt tokens i).value) error).2
          ≠ ERROR_NONE
      · rw [if_pos hcalc]
        exact ⟨_, rfl, hcalc⟩
      · rw [if_neg hcalc]
        obtain ⟨hnum, hle, hop, _⟩ := hfact
        obtain ⟨t1, t2, t3⟩ := tokAt_after_factorial tokens i last
          ⟨TOKEN_NUMBER,
            showInt (calculate_factorial (atoi (tokAt tokens i).value) error).1⟩ hnum
        have hL : last - 1 + 1 - start + 1 ≤ last + 1 - start := by omega
        have hsqL := Nat.mul_le_mul hL hL
        apply ih _ start start (last - 1) _ (le_refl _) (by omega)
        · nlinarith
        · intro m hm
          have hrem := prefix_depth_after_removal tokens _ start i last hsi
            (by
              intro k hk
              rcases Nat.lt_or_eq_of_le hk with hlt | heq
              · rw [t1 k hlt]
              · subst heq
                rw [t2]
                simp [paren_weight, hnum])
            (by
              intro k hk1 hk2
              rw [t3 k hk1 hk2])
            (by simp [paren_weight, hop])
            m (by omega)
          rw [hrem]
          split_ifs
          · exact hdepth m (by omega)
          · exact hdepth (m + 1) (by omega)
        · obtain ⟨p, hp1, hp2, hp3⟩ := hopen
          have hpi : p ≠ i := by
            rintro rfl
            rw [hnum] at hp3
            cases hp3
          have hpi1 : p ≠ i + 1 := by
            rintro rfl
            rw [hop] at hp3
            cases hp3
          by_cases hlt : p < i
          · exact ⟨p, hp1, by omega, by rw [t1 p hlt]; exact hp3⟩
          · refine ⟨p - 1, by omega, by omega, ?_⟩
            rw [t3 (p - 1) (by omega) (by omega)]
            have : p - 1 + 1 = p := by omega
            rw [this]
            exact hp3
        · intro q hq1 hq2
          omega
    · rw [if_neg hfact]
      apply ih tokens start (i + 1) last error (by omega) (by omega) (by omega) hdepth hopen
      intro q hq1 hq2
      rcases Nat.lt_or_eq_of_le (Nat.le_of_lt_succ hq2) with hlt | heq
      · exact hscan q hq1 hlt
      · subst heq
        exact ho

/-- The running depth of the specification is the depth by position. -/
theorem spec_running_depth_eq_prefix_depth (tokens : List Token) :
    ∀ k : Nat, spec_running_depth tokens k = prefix_depth tokens 0 k := by
  intro k
  induction k with
  | zero => simp [spec_running_depth, prefix_depth]
  | succ k ih =>
    rw [prefix_depth, ← ih]
    unfold spec_running_depth
    rw [List.take_succ, List.countP_append, List.countP_append]
    simp only [Nat.zero_add, tokAt, List.getD_eq_getElem?_getD]
    cases tokens[k]? with
    | none => simp [paren_weight]
    | some t =>
      simp only [Option.toList, Option.getD_some, List.countP_cons, List.countP_nil,
        paren_weight]
      by_cases h1 : t.type = TOKEN_PAREN_OPEN
      · have h2 : ¬ t.type = TOKEN_PAREN_CLOSE := by rw [h1]; decide
        simp [h1]
        omega
      · by_cases h2 : t.type = TOKEN_PAREN_CLOSE
        · simp [h1, h2]
          omega
        · simp [h1, h2]

/-- A balanced sequence that holds a parenthesis token holds a ParenOpen at
some position. -/
theorem exists_paren_open (tokens : List Token)
    (hp : ∃ t ∈ tokens, t.type = TOKEN_PAREN_OPEN ∨ t.type = TOKEN_PAREN_CLOSE)
    (hfinal : spec_running_depth tokens tokens.length = 0) :
    ∃ p, 0 ≤ p ∧ p ≤ tokens.length - 1 ∧ (tokAt tokens p).type = TOKEN_PAREN_OPEN := by
  have hmem : ∃ t ∈ tokens, t.type = TOKEN_PAREN_OPEN := by
    obtain ⟨t, ht, hty⟩ := hp
    rcases hty with h | h
    · exact ⟨t, ht, h⟩
    · unfold spec_running_depth at hfinal
      rw [List.take_length] at hfinal
      have hc : 0 < tokens.countP (fun t => t.type = TOKEN_PAREN_CLOSE) :=
        List.countP_pos_iff.mpr ⟨t, ht, by simpa using h⟩
      have ho : 0 < tokens.countP (fun t => t.type = TOKEN_PAREN_OPEN) := by omega
      obtain ⟨u, hu, hut⟩ := List.countP_pos_iff.mp ho
      exact ⟨u, hu, by simpa using hut⟩
  obtain ⟨t, ht, hty⟩ := hmem
  obtain ⟨n, hn, hget⟩ := List.getElem_of_mem ht
  refine ⟨n, Nat.zero_le _, by omega, ?_⟩
  unfold tokAt
  rw [List.getD_eq_getElem?_getD, List.getElem?_eq_getElem hn, hget]
  exact hty

/-- Every token sequence that holds a parenthesis token makes
`evaluate_expression` return with an error. -/
theorem evaluate_expression_paren_fails (tokens : List Token)
    (hp : ∃ t ∈ tokens, t.type = TOKEN_PAREN_OPEN ∨ t.type = TOKEN_PAREN_CLOSE)
    (vars : Store) (err : BasicError) :
    ∃ r, evaluate_expression vars tokens err = Run.ret r ∧ r.error ≠ ERROR_NONE := by
  have hlen : tokens.length ≠ 0 := by
    obtain ⟨t, ht, _⟩ := hp
    intro h0
    rw [List.length_eq_zero.mp h0] at ht
    cases ht
  unfold evaluate_expression
  rw [if_neg hlen]
  cases hb : balance_loop tokens 0 with
  | none => exact ⟨_, rfl, fun h => BasicError.noConfusion h⟩
  | some depth =>
    dsimp only
    by_cases hd : depth ≠ 0
    · rw [if_pos hd]
      exact ⟨_, rfl, fun h => BasicError.noConfusion h⟩
    · rw [if_neg hd]
      have hd0 : depth = 0 := by simpa using hd
      obtain ⟨h1, h2⟩ := balance_loop_some tokens 0 depth (le_refl 0) hb
      have hfinal : spec_running_depth tokens tokens.length = 0 := by omega
      unfold evaluate_subexpression eval_fuel
      apply reduce_loop_paren_fails vars _ tokens 0 0 (tokens.length - 1) err (le_refl 0)
        (by omega) (by omega)
      · intro m hm
        rw [← spec_running_depth_eq_prefix_depth]
        have := h2 m (by omega)
        omega
      · exact exists_paren_open tokens hp hfinal
      · intro q _ hq
        omega

/-- C19: for every token sequence that holds at least one ParenOpen or
ParenClose token, every store and every entry value of the error,
`evaluate_expression` returns with an error kind other than `ERROR_NONE`; so
a PRINT of it prints nothing, and a LET of it (whatever the target token is)
leaves the store as it was. -/
theorem paren_expression_never_succeeds (tokens : List Token)
    (hp : ∃ t ∈ tokens, t.type = TOKEN_PAREN_OPEN ∨ t.type = TOKEN_PAREN_CLOSE)
    (vars : Store) (err : BasicError) :
    (∃ r, evaluate_expression vars tokens err = Run.ret r ∧ r.error ≠ ERROR_NONE)
      ∧ (∃ p, basic_parse vars (kw "PRINT" :: tokens) err = Run.ret p
          ∧ p.error ≠ ERROR_NONE ∧ p.output = [] ∧ p.vars = vars)
      ∧ (∀ target : Token,
          ∃ p, basic_parse vars (kw "LET" :: target :: op "=" :: tokens) err = Run.ret p
            ∧ p.error ≠ ERROR_NONE ∧ p.output = [] ∧ p.vars = vars) := by
  obtain ⟨r, hr, hne⟩ := evaluate_expression_paren_fails tokens hp vars err
  have hnil : tokens ≠ [] := by
    rintro rfl
    obtain ⟨t, ht, _⟩ := hp
    cases ht
  obtain ⟨t, rest, rfl⟩ := List.exists_cons_of_ne_nil hnil
  refine ⟨⟨r, hr, hne⟩, ?_, ?_⟩
  · rw [print_unfold, hr]
    exact ⟨_, rfl, hne, by simp [hne], rfl⟩
  · intro target
    have hlen : ¬ (rest.length + 1 + 1 + 1 + 1 < 4) := by omega
    by_cases hv : target.type = TOKEN_VARIABLE
    · refine ⟨⟨1, r.error, [], vars, kw "LET" :: target :: op "=" :: r.tokens⟩, ?_, hne,
        rfl, rfl⟩
      simp [basic_parse, tokAt, kw, op, hv, hr, hne]
    · refine ⟨⟨0, ERROR_INVALID_VARIABLE, [], vars,
          kw "LET" :: target :: op "=" :: t :: rest⟩, ?_,
        fun h => BasicError.noConfusion h, rfl, rfl⟩
      simp [basic_parse, tokAt, kw, op, hv]

/-- C19 (witness): the expression `(1)` holds parentheses; it fails with
`ERROR_SYNTAX_ERROR`, `PRINT (1)` prints nothing and `LET A = (1)` stores
nothing. -/
theorem paren_expression_never_succeeds_witness :
    basic_tokenize "PRINT (1)".toList
        = Run.ret (some [kw "PRINT", popen, num "1", pclose])
      ∧ (∃ t ∈ [popen, num "1", pclose],
          t.type = TOKEN_PAREN_OPEN ∨ t.type = TOKEN_PAREN_CLOSE)
      ∧ (∃ r, evaluate_expression basic_init [popen, num "1", pclose] ERROR_NONE = Run.ret r
          ∧ r.error ≠ ERROR_NONE)
      ∧ (∃ p, basic_parse basic_init (kw "PRINT" :: [popen, num "1", pclose]) ERROR_NONE
            = Run.ret p
          ∧ p.error ≠ ERROR_NONE ∧ p.output = [] ∧ p.vars = basic_init)
      ∧ (∃ p, basic_parse basic_init
            (kw "LET" :: var 'A' :: op "=" :: [popen, num "1", pclose]) ERROR_NONE
            = Run.ret p
          ∧ p.error ≠ ERROR_NONE ∧ p.output = [] ∧ p.vars = basic_init) :=
  ⟨by decide, ⟨popen, by decide, Or.inl rfl⟩,
    (paren_expression_never_succeeds [popen, num "1", pclose]
      ⟨popen, by decide, Or.inl rfl⟩ basic_init ERROR_NONE).1,
    (paren_expression_never_succeeds [popen, num "1", pclose]
      ⟨popen, by decide, Or.inl rfl⟩ basic_init ERROR_NONE).2.1,
    (paren_expression_never_succeeds [popen, num "1", pclose]
      ⟨popen, by decide, Or.inl rfl⟩ basic_init ERROR_NONE).2.2 (var 'A')⟩

/-! ## The left-associative fold -/

/-- Adding a multiple of 2^32 does not change the wrapped value. -/
theorem wrap32_add_mul (y z : Int) : wrap32 (y + z * 4294967296) = wrap32 y := by
  unfold wrap32
  rw [show y + z * 4294967296 + 2147483648 = y + 2147483648 + z * 4294967296 by ring,
    Int.add_mul_emod_self]

/-- The wrapped value differs from the exact one by a multiple of 2^32. -/
theorem wrap32_eq_add (r : Int) : ∃ k : Int, wrap32 r = r + k * 4294967296 := by
  refine ⟨-((r + 2147483648) / 4294967296), ?_⟩
  unfold wrap32
  rw [Int.emod_def]
  ring

/-- Wrapping a factor first does not change the wrapped product. -/
theorem wrap32_mul_left (r x : Int) : wrap32 (wrap32 r * x) = wrap32 (r * x) := by
  obtain ⟨k, hk⟩ := wrap32_eq_add r
  rw [hk, show (r + k * 4294967296) * x = r * x + (k * x) * 4294967296 by ring,
    wrap32_add_mul]

/-- The loop of the power case, started from a wrapped value. -/
theorem power_loop_wrapped (base : Int) :
    ∀ (n : Nat) (r : Int), power_loop base n (wrap32 r) = wrap32 (r * base ^ n) := by
  intro n
  induction n with
  | zero => intro r; simp [power_loop]
  | succ n ih =>
    intro r
    rw [power_loop, ih, mul_assoc, wrap32_mul_left, pow_succ]
    congr 1
    ring

/-- The loop of the power case computes the power, reduced to 32 bits. -/
theorem power_loop_eq (base : Int) (n : Nat) : power_loop base n 1 = wrap32 (base ^ n) := by
  have h := power_loop_wrapped base n 1
  have h1 : wrap32 1 = 1 := by decide
  rw [h1, one_mul] at h
  exact h

/-- A step of the `switch` that ends in `break` on one of the six binary
operators yields the value of the operator on 32-bit integers. -/
theorem apply_operation_next (c : Char) (hc : c ∈ ['+', '-', '*', '/', '%', '^'])
    (a b r : Int) (h : apply_operation (get_operator_type [c]) a b = Step.next r) :
    r = spec_binop c a b := by
  simp only [List.mem_cons, List.mem_singleton, List.not_mem_nil, or_false] at hc
  rcases hc with rfl | rfl | rfl | rfl | rfl | rfl
  · simp only [get_operator_type, apply_operation, Step.next.injEq] at h
    rw [← h]; rfl
  · simp only [get_operator_type, apply_operation, Step.next.injEq] at h
    rw [← h]; rfl
  · simp only [get_operator_type, apply_operation] at h
    split_ifs at h
    simp only [Step.next.injEq] at h
    rw [← h]; rfl
  · simp only [get_operator_type, apply_operation] at h
    split_ifs at h
    simp only [Step.next.injEq] at h
    rw [← h]; rfl
  · simp only [get_operator_type, apply_operation] at h
    split_ifs at h
    simp only [Step.next.injEq] at h
    rw [← h]; rfl
  · simp only [get_operator_type, apply_operation] at h
    split_ifs at h
    simp only [Step.next.injEq] at h
    rw [← h, power_loop_eq]; rfl

/-- A step of the `switch` that fails stores an error other than
`ERROR_NONE`. -/
theorem apply_operation_fail (operation : OperatorType) (a b : Int) (e : BasicError)
    (h : apply_operation operation a b = Step.fail e) : e ≠ ERROR_NONE := by
  unfold apply_operation at h
  split at h <;> (try split_ifs at h) <;> cases h <;>
    exact fun h => BasicError.noConfusion h

/-- The token read just after a sequence is the first token of what follows. -/
theorem tokAt_append_cons (pre : List Token) (x : Token) (xs : List Token) :
    tokAt (pre ++ x :: xs) pre.length = x := by
  unfold tokAt
  rw [List.getD_eq_getElem?_getD, List.getElem?_append_right (le_refl _)]
  simp

/-- The fold of the code over `op1 v1 op2 v2 ...`, when it ends without an
error, returns the left-associative value of the specification. -/
theorem fold_loop_alternate (vars : Store) :
    ∀ (pairs : List (Token × Token)) (pre : List Token) (acc : Int) (op0 : OperatorType)
      (r : Int),
      (∀ p ∈ pairs, spec_binary_operator p.1 ∧ spec_value_token p.2) →
      fold_loop vars (pre ++ alternate pairs) (2 * pairs.length) pre.length acc op0
        = Run.ret (r, ERROR_NONE) →
      r = spec_fold acc (pairs.map (fun p => (peek p.1.value, operand vars p.2))) := by
  intro pairs
  induction pairs with
  | nil =>
    intro pre acc op0 r _ h
    simp only [List.length_nil, Nat.mul_zero, fold_loop, Run.ret.injEq, Prod.mk.injEq] at h
    simp only [List.map_nil, spec_fold]
    exact h.1.symm
  | cons p rest ih =>
    obtain ⟨o, v⟩ := p
    intro pre acc op0 r hall h
    obtain ⟨⟨hot, c, hc, hov⟩, hv⟩ := hall (o, v) (List.mem_cons_self _ _)
    dsimp only at hot hov hv
    have hrest : ∀ p ∈ rest, spec_binary_operator p.1 ∧ spec_value_token p.2 :=
      fun p hp => hall p (List.mem_cons_of_mem _ hp)
    have hlen : 2 * ((o, v) :: rest).length = 2 * rest.length + 1 + 1 := by
      simp only [List.length_cons]; omega
    have ho : tokAt (pre ++ alternate ((o, v) :: rest)) pre.length = o :=
      tokAt_append_cons pre o (v :: alternate rest)
    have hv1 : tokAt (pre ++ alternate ((o, v) :: rest)) (pre.length + 1) = v := by
      have := tokAt_append_cons (pre ++ [o]) v (alternate rest)
      simpa [alternate] using this
    have hnv : ¬ (o.type = TOKEN_NUMBER ∨ o.type = TOKEN_VARIABLE) := by
      rw [hot]; decide
    have hvv : v.type = TOKEN_NUMBER ∨ v.type = TOKEN_VARIABLE := hv
    rw [hlen, fold_loop, ho, if_neg hnv, if_pos hot, fold_loop, hv1, if_pos hvv] at h
    dsimp only at h
    have hcur : (if v.type = TOKEN_NUMBER then atoi v.value
        else get_variable_value vars (peek v.value)) = operand vars v := rfl
    rw [hcur, hov] at h
    cases hstep : apply_operation (get_operator_type [c]) acc (operand vars v) with
    | trap => rw [hstep] at h; cases h
    | fail e =>
      rw [hstep] at h
      simp only [Run.ret.injEq, Prod.mk.injEq] at h
      exact absurd h.2 (apply_operation_fail _ _ _ _ hstep)
    | next r1 =>
      rw [hstep] at h
      dsimp only at h
      have hr1 := apply_operation_next c hc acc (operand vars v) r1 hstep
      have hT : pre ++ alternate ((o, v) :: rest) = (pre ++ [o, v]) ++ alternate rest := by
        simp [alternate]
      have hL : pre.length + 1 + 1 = (pre ++ [o, v]).length := by simp
      rw [hT, hL] at h
      have := ih (pre ++ [o, v]) r1 (get_operator_type [c]) r hrest h
      rw [this, hr1]
      simp only [List.map_cons, spec_fold, hov, peek, List.headD_cons]

/-- Without overflow the value on 32-bit integers is the exact value. -/
theorem spec_fold_exact :
    ∀ (steps : List (Char × Int)) (acc : Int), spec_no_overflow acc steps →
      spec_fold acc steps = spec_exact_fold acc steps := by
  intro steps
  induction steps with
  | nil => intro acc _; rfl
  | cons s rest ih =>
    obtain ⟨c, v⟩ := s
    intro acc h
    obtain ⟨hr, hrest⟩ := h
    have hb : spec_binop c acc v = spec_exact c acc v := by
      unfold spec_binop
      split_ifs
      · rfl
      · exact wrap32_of_range _ hr
    simp only [spec_fold, spec_exact_fold, hb]
    exact ih _ hrest

/-- The sequence `v0 op1 v1 ...` is a flat span. -/
theorem alternate_flat (v0 : Token) (pairs : List (Token × Token))
    (hv0 : spec_value_token v0)
    (hall : ∀ p ∈ pairs, spec_binary_operator p.1 ∧ spec_value_token p.2) :
    spec_flat (v0 :: alternate pairs) := by
  have hval : ∀ t : Token, spec_value_token t →
      t.type ≠ TOKEN_PAREN_OPEN ∧ t.type ≠ TOKEN_PAREN_CLOSE
        ∧ ¬ (t.type = TOKEN_OPERATOR ∧ get_operator_type t.value = OP_FACTORIAL) := by
    intro t ht
    rcases ht with h | h <;> rw [h] <;> exact ⟨by decide, by decide, fun h2 => by cases h2.1⟩
  have hop : ∀ t : Token, spec_binary_operator t →
      t.type ≠ TOKEN_PAREN_OPEN ∧ t.type ≠ TOKEN_PAREN_CLOSE
        ∧ ¬ (t.type = TOKEN_OPERATOR ∧ get_operator_type t.value = OP_FACTORIAL) := by
    intro t ht
    obtain ⟨h1, c, hc, h2⟩ := ht
    refine ⟨by rw [h1]; decide, by rw [h1]; decide, ?_⟩
    rintro ⟨_, h3⟩
    rw [h2] at h3
    simp only [List.mem_cons, List.mem_singleton, List.not_mem_nil, or_false] at hc
    rcases hc with rfl | rfl | rfl | rfl | rfl | rfl <;> cases h3
  have halt : ∀ (ps : List (Token × Token)),
      (∀ p ∈ ps, spec_binary_operator p.1 ∧ spec_value_token p.2) →
      ∀ t ∈ alternate ps, t.type ≠ TOKEN_PAREN_OPEN ∧ t.type ≠ TOKEN_PAREN_CLOSE
        ∧ ¬ (t.type = TOKEN_OPERATOR ∧ get_operator_type t.value = OP_FACTORIAL) := by
    intro ps
    induction ps with
    | nil => intro _ t ht; cases ht
    | cons p rest ih =>
      obtain ⟨o, v⟩ := p
      intro h t ht
      simp only [alternate, List.mem_cons] at ht
      rcases ht with rfl | rfl | ht
      · exact hop _ (h (_, v) (List.mem_cons_self _ _)).1
      · exact hval _ (h (o, _) (List.mem_cons_self _ _)).2
      · exact ih (fun p hp => h p (List.mem_cons_of_mem _ hp)) t ht
  intro t ht
  rcases List.mem_cons.mp ht with rfl | ht
  · exact hval _ hv0
  · exact halt pairs hall t ht

/-- The length of `op1 v1 op2 v2 ...`. -/
theorem alternate_length (pairs : List (Token × Token)) :
    (alternate pairs).length = 2 * pairs.length := by
  induction pairs with
  | nil => rfl
  | cons p rest ih =>
    obtain ⟨o, v⟩ := p
    simp only [alternate, List.length_cons, ih]
    omega

/-- The fold of the code over `op1 v1 op2 v2 ...`, when no step fails, returns
the left-associative value of the specification without error. -/
theorem fold_loop_alternate_ok (vars : Store) :
    ∀ (pairs : List (Token × Token)) (pre : List Token) (acc : Int) (op0 : OperatorType),
      (∀ p ∈ pairs, spec_binary_operator p.1 ∧ spec_value_token p.2) →
      no_step_fails vars acc pairs →
      fold_loop vars (pre ++ alternate pairs) (2 * pairs.length) pre.length acc op0
        = Run.ret (spec_fold acc (pairs.map (fun p => (peek p.1.value, operand vars p.2))),
            ERROR_NONE) := by
  intro pairs
  induction pairs with
  | nil => intro pre acc op0 _ _; rfl
  | cons p rest ih =>
    obtain ⟨o, v⟩ := p
    intro pre acc op0 hall hok
    obtain ⟨⟨hot, c, hc, hov⟩, hv⟩ := hall (o, v) (List.mem_cons_self _ _)
    dsimp only at hot hov hv
    obtain ⟨r1, hstep, hokrest⟩ := hok
    have hrest : ∀ p ∈ rest, spec_binary_operator p.1 ∧ spec_value_token p.2 :=
      fun p hp => hall p (List.mem_cons_of_mem _ hp)
    have hlen : 2 * ((o, v) :: rest).length = 2 * rest.length + 1 + 1 := by
      simp only [List.length_cons]; omega
    have ho : tokAt (pre ++ alternate ((o, v) :: rest)) pre.length = o :=
      tokAt_append_cons pre o (v :: alternate rest)
    have hv1 : tokAt (pre ++ alternate ((o, v) :: rest)) (pre.length + 1) = v := by
      have := tokAt_append_cons (pre ++ [o]) v (alternate rest)
      simpa [alternate] using this
    have hnv : ¬ (o.type = TOKEN_NUMBER ∨ o.type = TOKEN_VARIABLE) := by
      rw [hot]; decide
    have hvv : v.type = TOKEN_NUMBER ∨ v.type = TOKEN_VARIABLE := hv
    have hcur : (if v.type = TOKEN_NUMBER then atoi v.value
        else get_variable_value vars (peek v.value)) = operand vars v := rfl
    rw [hlen, fold_loop, ho, if_neg hnv, if_pos hot, fold_loop, hv1, if_pos hvv]
    dsimp only
    rw [hcur, hstep]
    dsimp only
    rw [hov] at hstep
    have hr1 := apply_operation_next c hc acc (operand vars v) r1 hstep
    have hT : pre ++ alternate ((o, v) :: rest) = (pre ++ [o, v]) ++ alternate rest := by
      simp [alternate]
    have hL : pre.length + 1 + 1 = (pre ++ [o, v]).length := by simp
    rw [hT, hL, ih (pre ++ [o, v]) r1 (get_operator_type o.value) hrest hokrest, hr1]
    simp only [List.map_cons, spec_fold, hov, peek, List.headD_cons]

/-- C16: for every token sequence `v0 op1 v1 ... opn vn` (values are Number or
Variable tokens, operators are Operator tokens with one of the symbols
`+ - * / % ^`), every store and every entry value of the error: when no step
fails, the evaluator returns without error the left-associative value
`(((v0 op1 v1) op2 v2) ... opn vn)` on 32-bit integers, with `/` and `%`
truncating toward zero, which is the exact integer value whenever no
intermediate result leaves the signed 32-bit range; conversely a value
returned without error is that left-associative value; and two value tokens
with no operator between them are combined by addition. -/
theorem left_associative_fold (v0 : Token) (pairs : List (Token × Token)) (vars : Store)
    (err : BasicError) (hv0 : spec_value_token v0)
    (hall : ∀ p ∈ pairs, spec_binary_operator p.1 ∧ spec_value_token p.2) :
    (no_step_fails vars (operand vars v0) pairs →
        outcome (evaluate_expression vars (v0 :: alternate pairs) err)
          = Run.ret (spec_fold (operand vars v0)
              (pairs.map (fun p => (peek p.1.value, operand vars p.2))), ERROR_NONE))
      ∧ (no_step_fails vars (operand vars v0) pairs →
          spec_no_overflow (operand vars v0)
            (pairs.map (fun p => (peek p.1.value, operand vars p.2))) →
          outcome (evaluate_expression vars (v0 :: alternate pairs) err)
            = Run.ret (spec_exact_fold (operand vars v0)
                (pairs.map (fun p => (peek p.1.value, operand vars p.2))), ERROR_NONE))
      ∧ (∀ r : Int,
          outcome (evaluate_expression vars (v0 :: alternate pairs) err)
            = Run.ret (r, ERROR_NONE) →
          r = spec_fold (operand vars v0)
            (pairs.map (fun p => (peek p.1.value, operand vars p.2))))
      ∧ (∀ a b : Token, spec_value_token a → spec_value_token b →
          outcome (evaluate_expression vars [a, b] err)
            = Run.ret (wrap32 (operand vars a + operand vars b), ERROR_NONE)) := by
  have hflat : outcome (evaluate_expression vars (v0 :: alternate pairs) err)
      = fold_loop vars ([v0] ++ alternate pairs) (2 * pairs.length) [v0].length
          (operand vars v0) OP_PLUS := by
    rw [evaluate_expression_flat vars (v0 :: alternate pairs) err (by simp)
      (alternate_flat v0 pairs hv0 hall)]
    have hlast : (v0 :: alternate pairs).length - 1 = 2 * pairs.length := by
      simp [alternate_length]
    have h0 : tokAt (v0 :: alternate pairs) 0 = v0 := rfl
    rw [hlast]
    unfold evaluate_flat
    rw [if_neg (by omega), h0]
    rcases hv0 with hn | hvar
    · rw [if_pos hn]
      simp only [operand, if_pos hn]
      rfl
    · have hnn : ¬ v0.type = TOKEN_NUMBER := by rw [hvar]; decide
      rw [if_neg hnn, if_pos hvar]
      simp only [operand, if_neg hnn]
      rfl
  have hok : no_step_fails vars (operand vars v0) pairs →
      outcome (evaluate_expression vars (v0 :: alternate pairs) err)
        = Run.ret (spec_fold (operand vars v0)
            (pairs.map (fun p => (peek p.1.value, operand vars p.2))), ERROR_NONE) := by
    intro h
    rw [hflat]
    exact fold_loop_alternate_ok vars pairs [v0] (operand vars v0) OP_PLUS hall h
  refine ⟨hok, fun h hno => ?_, fun r hrun => ?_, ?_⟩
  · rw [hok h, spec_fold_exact _ _ hno]
  · rw [hflat] at hrun
    exact fold_loop_alternate vars pairs [v0] (operand vars v0) OP_PLUS r hall hrun
  · intro a b ha hb
    obtain ⟨ta, va⟩ := a
    obtain ⟨tb, vb⟩ := b
    unfold spec_value_token at ha hb
    dsimp only at ha hb
    rcases ha with rfl | rfl <;> rcases hb with rfl | rfl <;> rfl

/-- C16 (witness): on the tokens `2 + 3 * 4` no step fails and the evaluator
returns 20, which is `(2 + 3) * 4`. -/
theorem left_associative_fold_witness :
    (spec_value_token (num "2")
        ∧ (∀ p ∈ [(op "+", num "3"), (op "*", num "4")],
            spec_binary_operator p.1 ∧ spec_value_token p.2)
        ∧ no_step_fails basic_init (operand basic_init (num "2"))
            [(op "+", num "3"), (op "*", num "4")])
      ∧ num "2" :: alternate [(op "+", num "3"), (op "*", num "4")]
        = [num "2", op "+", num "3", op "*", num "4"]
      ∧ outcome (evaluate_expression basic_init
          (num "2" :: alternate [(op "+", num "3"), (op "*", num "4")]) ERROR_NONE)
        = Run.ret (spec_fold (operand basic_init (num "2"))
            ([(op "+", num "3"), (op "*", num "4")].map
              (fun p => (peek p.1.value, operand basic_init p.2))), ERROR_NONE)
      ∧ spec_fold (operand basic_init (num "2"))
          ([(op "+", num "3"), (op "*", num "4")].map
            (fun p => (peek p.1.value, operand basic_init p.2))) = 20
      ∧ ((2 : Int) + 3) * 4 = 20 := by
  have hv : spec_value_token (num "2") := Or.inl rfl
  have hall : ∀ p ∈ [(op "+", num "3"), (op "*", num "4")],
      spec_binary_operator p.1 ∧ spec_value_token p.2 := by
    intro p hp
    simp only [List.mem_cons, List.mem_singleton, List.not_mem_nil, or_false] at hp
    rcases hp with rfl | rfl
    · exact ⟨⟨rfl, '+', by decide, rfl⟩, Or.inl rfl⟩
    · exact ⟨⟨rfl, '*', by decide, rfl⟩, Or.inl rfl⟩
  have hok : no_step_fails basic_init (operand basic_init (num "2"))
      [(op "+", num "3"), (op "*", num "4")] :=
    ⟨5, by decide, 20, by decide, trivial⟩
  exact ⟨⟨hv, hall, hok⟩, rfl,
    (left_associative_fold (num "2") [(op "+", num "3"), (op "*", num "4")] basic_init
      ERROR_NONE hv hall).1 hok, by decide, by decide⟩

/-! ## The tokenizer and the accepted lines -/


/-- A letter is not a blank. -/
theorem isalpha_not_blank (c : Char) (h : isalpha c = true) : spec_blank c = false := by
  simp only [isalpha, decide_eq_true_eq] at h
  by_contra hb
  simp only [spec_blank, Bool.not_eq_false, Bool.or_eq_true, beq_iff_eq] at hb
  rcases hb with rfl | rfl <;> revert h <;> decide

/-- A digit is plain, and is neither a letter nor a blank. -/
theorem isdigit_plain (c : Char) (h : isdigit c = true) :
    isalpha c = false ∧ spec_plain_char c = true ∧ spec_blank c = false := by
  refine ⟨isalpha_false_of_isdigit c h, by simp [spec_plain_char, h], ?_⟩
  have := (digit_facts c h)
  simp [spec_blank, this.2.1, this.2.2.1]

/-- The scan passes over a run of letters by collecting it. -/
theorem spec_scan_letters :
    ∀ (letters run rest : List Char), (∀ a ∈ letters, isalpha a = true) →
      spec_scan run (letters ++ rest) = spec_scan (run ++ letters) rest := by
  intro letters
  induction letters with
  | nil => intro run rest _; simp
  | cons a more ih =>
    intro run rest h
    have ha := h a (List.mem_cons_self _ _)
    rw [List.cons_append, spec_scan, if_pos ha,
      ih (run ++ [a]) rest (fun x hx => h x (List.mem_cons_of_mem _ hx))]
    simp

/-- Where the text left is empty or starts with a character that is no letter,
the scan checks the run collected so far and goes on without a run. -/
theorem spec_scan_run_end (run rest : List Char)
    (h : ∀ c cs, rest = c :: cs → isalpha c = false) :
    spec_scan run rest = (spec_run_ok run && spec_scan [] rest) := by
  cases rest with
  | nil =>
    have : spec_run_ok [] = true := by decide
    simp [spec_scan, this]
  | cons c cs =>
    have hc := h c cs rfl
    have h0 : spec_run_ok [] = true := by decide
    simp [spec_scan, hc, h0, Bool.and_assoc]

/-- The scan passes over plain characters that are no letters. -/
theorem spec_scan_plain :
    ∀ (chars rest : List Char),
      (∀ a ∈ chars, isalpha a = false ∧ spec_plain_char a = true) →
      spec_scan [] (chars ++ rest) = spec_scan [] rest := by
  intro chars
  induction chars with
  | nil => intro rest _; rfl
  | cons a more ih =>
    intro rest h
    obtain ⟨h1, h2⟩ := h a (List.mem_cons_self _ _)
    have h0 : spec_run_ok [] = true := by decide
    rw [List.cons_append, spec_scan]
    simp only [h1, h2, h0, Bool.false_eq_true, if_false, Bool.and_self, Bool.true_and]
    exact ih rest (fun x hx => h x (List.mem_cons_of_mem _ hx))

/-- What is left after a leading run was dropped is empty or starts with a
character outside the run. -/
theorem dropWhile_head (p : Char → Bool) :
    ∀ (l : List Char) (c : Char) (cs : List Char), l.dropWhile p = c :: cs → p c = false := by
  intro l
  induction l with
  | nil => intro c cs h; cases h
  | cons a more ih =>
    intro c cs h
    by_cases ha : p a = true
    · rw [List.dropWhile_cons_of_pos ha] at h
      exact ih c cs h
    · rw [List.dropWhile_cons_of_neg ha] at h
      cases h
      simpa using ha

/-- A blank is plain and is no letter. -/
theorem blank_plain (c : Char) (h : spec_blank c = true) :
    isalpha c = false ∧ spec_plain_char c = true := by
  refine ⟨?_, by simp [spec_plain_char, h]⟩
  by_contra ha
  simp only [Bool.not_eq_false] at ha
  rw [isalpha_not_blank c ha] at h
  cases h

/-- The scan of a line is the scan of the line after its leading blanks. -/
theorem spec_scan_skip (ptr : List Char) :
    spec_scan [] ptr = spec_scan [] (skip_whitespace ptr) := by
  have hsplit : ptr = ptr.takeWhile spec_blank ++ skip_whitespace ptr :=
    (List.takeWhile_append_dropWhile spec_blank ptr).symm
  conv_lhs => rw [hsplit]
  exact spec_scan_plain _ _ (fun a ha => blank_plain a (List.mem_takeWhile_imp ha))

/-- Removing the blanks of a line removes its leading blanks. -/
theorem spec_without_blanks_skip (ptr : List Char) :
    spec_without_blanks ptr = spec_without_blanks (skip_whitespace ptr) := by
  have hsplit : ptr = ptr.takeWhile spec_blank ++ skip_whitespace ptr :=
    (List.takeWhile_append_dropWhile spec_blank ptr).symm
  conv_lhs => rw [hsplit]
  unfold spec_without_blanks
  rw [List.filter_append]
  have : (ptr.takeWhile spec_blank).filter (fun c => !spec_blank c) = [] := by
    rw [List.filter_eq_nil_iff]
    intro a ha
    simp [List.mem_takeWhile_imp ha]
  rw [this, List.nil_append]

/-- Removing the blanks keeps a text without blanks at the front of a line. -/
theorem spec_without_blanks_append (text rest : List Char)
    (h : ∀ a ∈ text, spec_blank a = false) :
    spec_without_blanks (text ++ rest) = text ++ spec_without_blanks rest := by
  unfold spec_without_blanks
  rw [List.filter_append]
  congr 1
  rw [List.filter_eq_self]
  intro a ha
  simp [h a ha]

/-- Collecting the runs passes over a run of letters. -/
theorem spec_runs_letters :
    ∀ (letters run rest : List Char), (∀ a ∈ letters, isalpha a = true) →
      spec_runs_from run (letters ++ rest) = spec_runs_from (run ++ letters) rest := by
  intro letters
  induction letters with
  | nil => intro run rest _; simp
  | cons a more ih =>
    intro run rest h
    have ha := h a (List.mem_cons_self _ _)
    rw [List.cons_append, spec_runs_from, if_pos ha,
      ih (run ++ [a]) rest (fun x hx => h x (List.mem_cons_of_mem _ hx))]
    simp

/-- Where the text left is empty or starts with a character that is no letter,
the run collected so far is complete. -/
theorem spec_runs_run_end (run rest : List Char)
    (h : ∀ c cs, rest = c :: cs → isalpha c = false) :
    spec_runs_from run rest = (if run = [] then [] else [run]) ++ spec_runs_from [] rest := by
  cases rest with
  | nil => simp [spec_runs_from]
  | cons c cs =>
    have hc := h c cs rfl
    simp [spec_runs_from, hc]

/-- Characters that are no letters add no run. -/
theorem spec_runs_plain :
    ∀ (chars rest : List Char), (∀ a ∈ chars, isalpha a = false) →
      spec_runs_from [] (chars ++ rest) = spec_runs_from [] rest := by
  intro chars
  induction chars with
  | nil => intro rest _; rfl
  | cons a more ih =>
    intro rest h
    have h1 := h a (List.mem_cons_self _ _)
    rw [List.cons_append, spec_runs_from]
    simp only [h1, Bool.false_eq_true, if_false, if_true, List.nil_append]
    exact ih rest (fun x hx => h x (List.mem_cons_of_mem _ hx))

/-- The runs of a line are the runs of the line after its leading blanks. -/
theorem spec_runs_skip (ptr : List Char) :
    spec_runs_from [] ptr = spec_runs_from [] (skip_whitespace ptr) := by
  have hsplit : ptr = ptr.takeWhile spec_blank ++ skip_whitespace ptr :=
    (List.takeWhile_append_dropWhile spec_blank ptr).symm
  conv_lhs => rw [hsplit]
  exact spec_runs_plain _ _ (fun a ha => (blank_plain a (List.mem_takeWhile_imp ha)).1)

/-- One round of the loop of the tokenizer on a text that, after its leading
blanks, starts with the character `c`.  Either the call returns 0 and the
specification rejects the text, or one token is appended: its text is a
non-empty front part of the text without blanks, an alphabetic token is
classified, the specification accepts the text exactly when it accepts what is
left after the token, and the token is a whole maximal alphabetic run or has
no letter at all. -/
theorem tokenize_step (fuel : Nat) (ptr : List Char) (tokens : List Token) (c : Char)
    (rest : List Char) (hs : skip_whitespace ptr = c :: rest) (h0 : c ≠ Char.ofNat 0) :
    (tokenize_loop (fuel + 1) ptr tokens = Run.ret none ∧ spec_scan [] (c :: rest) = false)
      ∨ ∃ tok ptr1,
          tokenize_loop (fuel + 1) ptr tokens = tokenize_loop fuel ptr1 (tokens ++ [tok])
            ∧ c :: rest = tok.value ++ ptr1 ∧ tok.value ≠ []
            ∧ (∀ x ∈ tok.value, spec_blank x = false) ∧ spec_classified tok
            ∧ spec_scan [] (c :: rest) = spec_scan [] ptr1
            ∧ ((isalpha c = true ∧ tok.value = (c :: rest).takeWhile isalpha
                  ∧ ptr1 = (c :: rest).dropWhile isalpha)
                ∨ ∀ x ∈ tok.value, isalpha x = false) := by
  have hnb : spec_blank c = false := dropWhile_head _ ptr c rest hs
  rw [tokenize_loop, hs]
  dsimp only
  rw [if_neg h0]
  by_cases ha : isalpha c = true
  · -- an alphabetic run
    rw [if_pos ha]
    have hsplit : c :: rest
        = (c :: rest).takeWhile isalpha ++ (c :: rest).dropWhile isalpha :=
      (List.takeWhile_append_dropWhile isalpha (c :: rest)).symm
    have hrun : (c :: rest).takeWhile isalpha = c :: rest.takeWhile isalpha :=
      List.takeWhile_cons_of_pos ha
    have hne : (c :: rest).takeWhile isalpha ≠ [] := by rw [hrun]; exact List.cons_ne_nil _ _
    have hblank : ∀ x ∈ (c :: rest).takeWhile isalpha, spec_blank x = false :=
      fun x hx => isalpha_not_blank x (List.mem_takeWhile_imp hx)
    have hscan : spec_scan [] (c :: rest)
        = (spec_run_ok ((c :: rest).takeWhile isalpha)
          && spec_scan [] ((c :: rest).dropWhile isalpha)) := by
      conv_lhs => rw [hsplit]
      rw [spec_scan_letters _ _ _ (fun a ha => List.mem_takeWhile_imp ha), List.nil_append]
      exact spec_scan_run_end _ _ (fun d ds hd => dropWhile_head isalpha _ d ds hd)
    by_cases hk : (c :: rest).takeWhile isalpha = ['L', 'E', 'T']
        ∨ (c :: rest).takeWhile isalpha = ['P', 'R', 'I', 'N', 'T']
        ∨ (c :: rest).takeWhile isalpha = ['E', 'X', 'I', 'T']
    · rw [if_pos hk]
      refine Or.inr ⟨_, _, rfl, hsplit, hne, hblank, fun _ => Or.inl ⟨hk, rfl⟩, ?_,
        Or.inl ⟨ha, rfl, rfl⟩⟩
      have hok : spec_run_ok ((c :: rest).takeWhile isalpha) = true := by
        unfold spec_run_ok
        rw [decide_eq_true_eq]
        exact Or.inr (by tauto)
      rw [hscan, hok, Bool.true_and]
    · rw [if_neg hk]
      by_cases hvar : ((c :: rest).takeWhile isalpha).length = 1
          ∧ 65 ≤ (peek ((c :: rest).takeWhile isalpha)).toNat
          ∧ (peek ((c :: rest).takeWhile isalpha)).toNat ≤ 90
      · rw [if_pos hvar]
        refine Or.inr ⟨_, _, rfl, hsplit, hne, hblank, fun _ => Or.inr ⟨hvar, rfl⟩, ?_,
          Or.inl ⟨ha, rfl, rfl⟩⟩
        have hok : spec_run_ok ((c :: rest).takeWhile isalpha) = true := by
          unfold spec_run_ok
          rw [decide_eq_true_eq]
          exact Or.inr (Or.inr (Or.inr (Or.inr hvar)))
        rw [hscan, hok, Bool.true_and]
      · rw [if_neg hvar]
        refine Or.inl ⟨rfl, ?_⟩
        have hbad : spec_run_ok ((c :: rest).takeWhile isalpha) = false := by
          unfold spec_run_ok
          rw [decide_eq_false_iff_not]
          rintro (h | h | h | h | h)
          · exact hne h
          · exact hk (Or.inl h)
          · exact hk (Or.inr (Or.inl h))
          · exact hk (Or.inr (Or.inr h))
          · exact hvar h
        rw [hscan, hbad, Bool.false_and]
  · -- no letter
    have haf : isalpha c = false := by simpa using ha
    rw [if_neg ha]
    have hone : ∀ chars : List Char, (∀ a ∈ chars, isalpha a = false ∧ spec_plain_char a = true) →
        ∀ ptr1, c :: rest = chars ++ ptr1 → spec_scan [] (c :: rest) = spec_scan [] ptr1 := by
      intro chars hch ptr1 heq
      rw [heq]
      exact spec_scan_plain chars ptr1 hch
    have hcls : ∀ (ty : TokenType) (more : List Char), spec_classified ⟨ty, c :: more⟩ := by
      intro ty more h
      simp only [peek, List.headD_cons] at h
      rw [haf] at h
      cases h
    by_cases hn : (isdigit c || ((c == '-' || c == '+') && isdigit (peek rest))) = true
    · rw [if_pos hn]
      by_cases hsg : (c == '-' || c == '+') = true
      · simp only [hsg, if_true]
        have hsplit : c :: rest
            = (c :: rest.takeWhile isdigit) ++ rest.dropWhile isdigit := by
          rw [List.cons_append, List.takeWhile_append_dropWhile]
        have hcp : spec_plain_char c = true := by
          simp only [Bool.or_eq_true, beq_iff_eq] at hsg
          rcases hsg with rfl | rfl <;> decide
        refine Or.inr ⟨_, _, rfl, hsplit, List.cons_ne_nil _ _, ?_, hcls _ _, ?_, Or.inr ?_⟩
        · intro x hx
          rcases List.mem_cons.mp hx with rfl | hx
          · exact hnb
          · exact (isdigit_plain x (List.mem_takeWhile_imp hx)).2.2
        rotate_left
        · intro x hx
          rcases List.mem_cons.mp hx with rfl | hx
          · exact haf
          · exact (isdigit_plain x (List.mem_takeWhile_imp hx)).1
        · apply hone _ _ _ hsplit
          intro a ha2
          rcases List.mem_cons.mp ha2 with rfl | ha2
          · exact ⟨haf, hcp⟩
          · exact ⟨(isdigit_plain a (List.mem_takeWhile_imp ha2)).1,
              (isdigit_plain a (List.mem_takeWhile_imp ha2)).2.1⟩
      · have hdc : isdigit c = true := by
          simp only [Bool.not_eq_true] at hsg
          simpa [hsg] using hn
        simp only [hsg, if_false, Bool.false_eq_true]
        have hsplit : c :: rest
            = (c :: rest).takeWhile isdigit ++ (c :: rest).dropWhile isdigit :=
          (List.takeWhile_append_dropWhile isdigit (c :: rest)).symm
        have hrun : (c :: rest).takeWhile isdigit = c :: rest.takeWhile isdigit :=
          List.takeWhile_cons_of_pos hdc
        refine Or.inr ⟨_, _, rfl, hsplit, by rw [hrun]; exact List.cons_ne_nil _ _, ?_, ?_, ?_,
          Or.inr (fun x hx => (isdigit_plain x (List.mem_takeWhile_imp hx)).1)⟩
        · intro x hx
          exact (isdigit_plain x (List.mem_takeWhile_imp hx)).2.2
        · rw [hrun]
          exact hcls _ _
        · apply hone _ _ _ hsplit
          intro a ha2
          exact ⟨(isdigit_plain a (List.mem_takeWhile_imp ha2)).1,
            (isdigit_plain a (List.mem_takeWhile_imp ha2)).2.1⟩
    · rw [if_neg hn]
      have hnd : isdigit c = false := by
        simp only [Bool.or_eq_true, not_or, Bool.not_eq_true] at hn
        exact hn.1
      have hsingle : ∀ ty : TokenType, spec_plain_char c = true →
          ∃ tok ptr1,
            tokenize_loop fuel rest (tokens ++ [⟨ty, [c]⟩])
                = tokenize_loop fuel ptr1 (tokens ++ [tok])
              ∧ c :: rest = tok.value ++ ptr1 ∧ tok.value ≠ []
              ∧ (∀ x ∈ tok.value, spec_blank x = false) ∧ spec_classified tok
              ∧ spec_scan [] (c :: rest) = spec_scan [] ptr1
              ∧ ((isalpha c = true ∧ tok.value = (c :: rest).takeWhile isalpha
                    ∧ ptr1 = (c :: rest).dropWhile isalpha)
                  ∨ ∀ x ∈ tok.value, isalpha x = false) := by
        intro ty hcp
        refine ⟨⟨ty, [c]⟩, rest, rfl, rfl, List.cons_ne_nil _ _, ?_, hcls _ _, ?_,
          Or.inr (fun x hx => by rw [List.mem_singleton.mp hx]; exact haf)⟩
        · intro x hx
          rw [List.mem_singleton.mp hx]
          exact hnb
        · apply hone [c] _ rest rfl
          intro a ha2
          rw [List.mem_singleton.mp ha2]
          exact ⟨haf, hcp⟩
      by_cases hop : c ∈ ['+', '-', '*', '/', '%', '^', '=', '!']
      · rw [if_pos hop]
        exact Or.inr (hsingle _ (by simp [spec_plain_char, hop]))
      · rw [if_neg hop]
        by_cases hpo : c = '('
        · rw [if_pos hpo]
          have := hsingle TOKEN_PAREN_OPEN (by rw [hpo]; decide)
          rw [hpo] at this ⊢
          exact Or.inr this
        · rw [if_neg hpo]
          by_cases hpc : c = ')'
          · rw [if_pos hpc]
            have := hsingle TOKEN_PAREN_CLOSE (by rw [hpc]; decide)
            rw [hpc] at this ⊢
            exact Or.inr this
          · rw [if_neg hpc]
            refine Or.inl ⟨rfl, ?_⟩
            have hcp : spec_plain_char c = false := by
              simp [spec_plain_char, hnb, hnd, hop, hpo, hpc]
            rw [spec_scan, if_neg ha, hcp]
            simp

/-- A character of the text after the leading blanks is a character of the
text. -/
theorem mem_of_mem_skip (ptr : List Char) (x : Char) (h : x ∈ skip_whitespace ptr) :
    x ∈ ptr :=
  (List.dropWhile_sublist _).subset h

/-- When the loop of the tokenizer returns 1 on a text without NUL, the tokens
it appended spell the text without its blanks, none of them is empty, the
alphabetic ones are classified and are the maximal alphabetic runs of the text,
and the specification accepts the text. -/
theorem tokenize_loop_sound :
    ∀ (fuel : Nat) (ptr : List Char) (tokens result : List Token),
      Char.ofNat 0 ∉ ptr → tokenize_loop fuel ptr tokens = Run.ret (some result) →
      ∃ added, result = tokens ++ added
        ∧ (added.map Token.value).flatten = spec_without_blanks ptr
        ∧ (∀ t ∈ added, t.value ≠ []) ∧ (∀ t ∈ added, spec_classified t)
        ∧ spec_scan [] ptr = true
        ∧ alphabetic_texts added = spec_runs_from [] ptr := by
  intro fuel
  induction fuel with
  | zero => intro ptr tokens result _ h; cases h
  | succ fuel ih =>
    intro ptr tokens result hnul h
    cases hs : skip_whitespace ptr with
    | nil =>
      rw [tokenize_loop, hs] at h
      simp only [Run.ret.injEq, Option.some.injEq] at h
      refine ⟨[], by simp [h], ?_, by simp, by simp, ?_, ?_⟩
      · rw [spec_without_blanks_skip, hs]
        rfl
      · rw [spec_scan_skip, hs]
        rfl
      · rw [spec_runs_skip, hs]
        rfl
    | cons c rest =>
      have hc : c ≠ Char.ofNat 0 := by
        rintro rfl
        exact hnul (mem_of_mem_skip ptr _ (by rw [hs]; exact List.mem_cons_self _ _))
      rcases tokenize_step fuel ptr tokens c rest hs hc with ⟨hfail, _⟩ |
        ⟨tok, ptr1, hstep, hsplit, hne, hblank, hcls, hscan, hrun⟩
      · rw [hfail] at h
        cases h
      · rw [hstep] at h
        have hnul1 : Char.ofNat 0 ∉ ptr1 := by
          intro hm
          apply hnul
          apply mem_of_mem_skip
          rw [hs, hsplit]
          exact List.mem_append_right _ hm
        obtain ⟨added, hres, hjoin, hnon, hclsall, hacc, hruns⟩ := ih ptr1 _ result hnul1 h
        refine ⟨tok :: added, by rw [hres]; simp, ?_, ?_, ?_, ?_, ?_⟩
        · rw [List.map_cons, List.flatten_cons, hjoin, spec_without_blanks_skip ptr, hs, hsplit,
            spec_without_blanks_append _ _ hblank]
        · intro t ht
          rcases List.mem_cons.mp ht with rfl | ht
          · exact hne
          · exact hnon t ht
        · intro t ht
          rcases List.mem_cons.mp ht with rfl | ht
          · exact hcls
          · exact hclsall t ht
        · rw [spec_scan_skip, hs, hscan]
          exact hacc
        · rw [spec_runs_skip, hs]
          unfold alphabetic_texts at hruns ⊢
          rcases hrun with ⟨ha, hval, hptr⟩ | hno
          · have hhead : isalpha (peek tok.value) = true := by
              rw [hval, List.takeWhile_cons_of_pos ha]
              exact ha
            rw [List.filter_cons, if_pos hhead, List.map_cons, hruns]
            conv_rhs => rw [hsplit]
            rw [spec_runs_letters _ _ _ (fun a h2 => by
              rw [hval] at h2; exact List.mem_takeWhile_imp h2), List.nil_append,
              spec_runs_run_end tok.value ptr1 (fun d ds hd => by
                rw [hptr] at hd; exact dropWhile_head isalpha _ d ds hd), if_neg hne]
            rfl
          · have hhead : ¬ isalpha (peek tok.value) = true := by
              cases hv : tok.value with
              | nil => exact absurd hv hne
              | cons a more =>
                have := hno a (by rw [hv]; exact List.mem_cons_self _ _)
                simp [peek, this]
            rw [List.filter_cons, if_neg hhead, hruns]
            conv_rhs => rw [hsplit]
            exact (spec_runs_plain _ _ hno).symm

/-- With more fuel than characters, the loop of the tokenizer on a text without
NUL returns 1 when the specification accepts the text and returns 0 when it
does not. -/
theorem tokenize_loop_complete :
    ∀ (fuel : Nat) (ptr : List Char) (tokens : List Token),
      ptr.length < fuel → Char.ofNat 0 ∉ ptr →
      (spec_scan [] ptr = true → ∃ result, tokenize_loop fuel ptr tokens = Run.ret (some result))
        ∧ (spec_scan [] ptr = false → tokenize_loop fuel ptr tokens = Run.ret none) := by
  intro fuel
  induction fuel with
  | zero => intro ptr tokens h; omega
  | succ fuel ih =>
    intro ptr tokens hlen hnul
    have hskiplen : (skip_whitespace ptr).length ≤ ptr.length :=
      (List.dropWhile_sublist _).length_le
    cases hs : skip_whitespace ptr with
    | nil =>
      constructor
      · intro _
        exact ⟨tokens, by rw [tokenize_loop, hs]⟩
      · intro hrej
        rw [spec_scan_skip, hs] at hrej
        cases hrej
    | cons c rest =>
      have hc : c ≠ Char.ofNat 0 := by
        rintro rfl
        exact hnul (mem_of_mem_skip ptr _ (by rw [hs]; exact List.mem_cons_self _ _))
      rw [spec_scan_skip, hs]
      rcases tokenize_step fuel ptr tokens c rest hs hc with ⟨hfail, hrej⟩ |
        ⟨tok, ptr1, hstep, hsplit, hne, _, _, hscan, _⟩
      · constructor
        · intro hacc
          rw [hrej] at hacc
          cases hacc
        · intro _
          exact hfail
      · have hnul1 : Char.ofNat 0 ∉ ptr1 := by
          intro hm
          apply hnul
          apply mem_of_mem_skip
          rw [hs, hsplit]
          exact List.mem_append_right _ hm
        have hlen1 : ptr1.length < fuel := by
          have h1 : (c :: rest).length = tok.value.length + ptr1.length := by
            rw [hsplit, List.length_append]
          have h2 : 0 < tok.value.length := List.length_pos.mpr hne
          rw [hs] at hskiplen
          omega
        rw [hstep, hscan]
        exact ih ptr1 _ hlen1 hnul1

/-- The scan of a text checks the runs of the text and its other characters. -/
theorem spec_scan_eq :
    ∀ (l run : List Char),
      spec_scan run l = ((spec_runs_from run l).all spec_run_ok
        && l.all (fun c => isalpha c || spec_plain_char c)) := by
  intro l
  induction l with
  | nil =>
    intro run
    have h0 : spec_run_ok [] = true := by decide
    by_cases hr : run = []
    · subst hr
      simp [spec_scan, spec_runs_from, h0]
    · simp [spec_scan, spec_runs_from, hr]
  | cons c cs ih =>
    intro run
    have h0 : spec_run_ok [] = true := by decide
    by_cases ha : isalpha c = true
    · rw [spec_scan, if_pos ha, spec_runs_from, if_pos ha, ih (run ++ [c])]
      simp [ha]
    · have haf : isalpha c = false := by simpa using ha
      rw [spec_scan, if_neg ha, spec_runs_from, if_neg ha, ih []]
      by_cases hr : run = []
      · subst hr
        simp only [haf, h0, if_true, List.nil_append, List.all_cons, Bool.false_or,
          Bool.true_and]
        cases spec_plain_char c <;> simp
      · simp only [hr, if_false, List.all_append, List.all_cons, List.all_nil, Bool.and_true, haf,
          Bool.false_or]
        cases spec_run_ok run <;> cases spec_plain_char c <;> simp

/-- The one-pass scan of a line decides the acceptance of the line. -/
theorem spec_scan_accepts (line : List Char) : spec_scan [] line = spec_accepts line :=
  spec_scan_eq line []

/-- A line of spaces and tabs only has nothing after its leading blanks. -/
theorem skip_whitespace_blank_line (line : List Char) (h : ∀ c ∈ line, c = ' ' ∨ c = '\t') :
    skip_whitespace line = [] := by
  unfold skip_whitespace
  rw [List.dropWhile_eq_nil_iff]
  intro c hc
  rcases h c hc with rfl | rfl <;> rfl

/-- C11: tokenizer acceptance.  For a line that is a C string (no NUL inside),
with every allocation succeeding and room in the token buffer, `basic_tokenize`
returns 1 exactly when every maximal run of alphabetic characters of the line
is `LET`, `PRINT`, `EXIT` or a single uppercase letter and every other
character is a space, a tab, a digit, one of `+ - * / % ^ = !`, `(` or `)`,
and it returns 0 on every other line.  On success the tokens that start with a
letter are, in order, the maximal alphabetic runs of the line, a run `LET`,
`PRINT` or `EXIT` as a Keyword and a single uppercase letter as a Variable.
An empty line or a line of blanks only gives the empty token sequence. -/
theorem tokenizer_acceptance (line : List Char) (hline : Char.ofNat 0 ∉ line) :
    ((∃ toks, basic_tokenize line = Run.ret (some toks)) ↔ spec_accepts line = true)
      ∧ (spec_accepts line = false → basic_tokenize line = Run.ret none)
      ∧ (∀ toks, basic_tokenize line = Run.ret (some toks) →
          alphabetic_texts toks = spec_alpha_runs line ∧ ∀ t ∈ toks, spec_classified t)
      ∧ ((∀ c ∈ line, c = ' ' ∨ c = '\t') → basic_tokenize line = Run.ret (some [])) := by
  have hcomp := tokenize_loop_complete (line.length + 1) line [] (Nat.lt_succ_self _) hline
  rw [spec_scan_accepts] at hcomp
  refine ⟨⟨?_, hcomp.1⟩, hcomp.2, ?_, ?_⟩
  · rintro ⟨toks, h⟩
    obtain ⟨added, _, _, _, _, hacc, _⟩ := tokenize_loop_sound _ line [] toks hline h
    rw [spec_scan_accepts] at hacc
    exact hacc
  · intro toks h
    obtain ⟨added, hres, _, _, hcls, _, hruns⟩ := tokenize_loop_sound _ line [] toks hline h
    rw [List.nil_append] at hres
    subst hres
    exact ⟨hruns, hcls⟩
  · intro hblank
    unfold basic_tokenize
    rw [tokenize_loop, skip_whitespace_blank_line line hblank]

/-- C11 at the line `LET A = 5`, which is accepted, with its two alphabetic
tokens. -/
theorem tokenizer_acceptance_witness :
    Char.ofNat 0 ∉ "LET A = 5".toList
      ∧ spec_accepts "LET A = 5".toList = true
      ∧ basic_tokenize "LET A = 5".toList
          = Run.ret (some [kw "LET", var 'A', op "=", num "5"])
      ∧ alphabetic_texts [kw "LET", var 'A', op "=", num "5"] = ["LET".toList, "A".toList]
      ∧ (∃ toks, basic_tokenize "LET A = 5".toList = Run.ret (some toks)) :=
  ⟨by decide, by decide, by decide, by decide,
    (tokenizer_acceptance "LET A = 5".toList (by decide)).1.mpr (by decide)⟩

/-- C20: the tokenizer is lossless up to blanks.  For a line that is a C string
(no NUL inside) on which `basic_tokenize` returns 1, the texts of the returned
tokens, concatenated in order, are the line with all spaces and tabs removed,
and no token text is empty. -/
theorem tokenizer_lossless (line : List Char) (toks : List Token)
    (hline : Char.ofNat 0 ∉ line) (h : basic_tokenize line = Run.ret (some toks)) :
    (toks.map Token.value).flatten = spec_without_blanks line
      ∧ ∀ t ∈ toks, t.value ≠ [] := by
  obtain ⟨added, hres, hjoin, hnon, _, _, _⟩ := tokenize_loop_sound _ line [] toks hline h
  rw [List.nil_append] at hres
  subst hres
  exact ⟨hjoin, hnon⟩

/-- C20 at the line `PRINT 2 + 3*4`. -/
theorem tokenizer_lossless_witness :
    Char.ofNat 0 ∉ "PRINT 2 + 3*4".toList
      ∧ basic_tokenize "PRINT 2 + 3*4".toList
        = Run.ret (some [kw "PRINT", num "2", op "+", num "3", op "*", num "4"])
      ∧ ([kw "PRINT", num "2", op "+", num "3", op "*", num "4"].map Token.value).flatten
          = "PRINT2+3*4".toList
      ∧ spec_without_blanks "PRINT 2 + 3*4".toList = "PRINT2+3*4".toList
      ∧ ((([kw "PRINT", num "2", op "+", num "3", op "*", num "4"].map Token.value).flatten
            = spec_without_blanks "PRINT 2 + 3*4".toList)
          ∧ ∀ t ∈ [kw "PRINT", num "2", op "+", num "3", op "*", num "4"], t.value ≠ []) :=
  ⟨by decide, by decide, by decide, by decide,
    tokenizer_lossless "PRINT 2 + 3*4".toList _ (by decide) (by decide)⟩

end Basic
